import Mathlib

/-!
Verification of the Answer Alignment & Scoring Engine found in
`Final_Model1(descriptive)` (files `normalize_text.py`, `keyword_extractor.py`,
`semantic_similarity.py`, `choice_handler.py`, `score_utils.py`,
`align_answers.py`, `evaluation_engine.py`, `config.py`).

Modelling conventions:
* a Python `str` is modelled as `List Char` (`PyStr`); the regexes used by the
  code (`\w`, `\s`, `\d`, option-letter patterns) are modelled character-wise
  on the ASCII range, which is the range the engine works in after the
  `unidecode` transliteration step;
* Python floats are modelled as `ℚ`; `round` is modelled as round-half-to-even
  (`pyRoundInt`), as in CPython;
* external collaborators that are not part of the repository are passed in as
  explicit function parameters collected in `PyExt`: the `unidecode`
  transliterator, the NLTK stemmer/lemmatizer (with availability flags
  mirroring the `try/except` import guard), the sentence-transformer cosine
  similarity, the YAKE candidate-keyword extractor, the `difflib`
  `SequenceMatcher.ratio`, and the float power operator used for the length
  penalty;
* Python dicts (insertion ordered) are modelled as association lists with a
  replace-in-place insert (`dictInsert`).
-/

abbrev PyStr := List Char

/-- Python whitespace class `\s` over the ASCII range ( space, tab, LF, CR,
vertical tab, form feed). -/
def isSpc (c : Char) : Bool :=
  c = ' ' || c = '\t' || c = '\n' || c = '\r' || c = '\x0b' || c = '\x0c'

/-- Python word-character class `\w` over the ASCII range: letters, digits and
underscore. -/
def isWordChar (c : Char) : Bool :=
  c.isAlphanum || c = '_'

/-- Python `str.strip()`: drop leading and trailing whitespace. -/
def pyStrip (l : PyStr) : PyStr :=
  ((l.dropWhile isSpc).reverse.dropWhile isSpc).reverse

/-- Helper for `collapseRuns`, tracking whether the scanner is inside a
whitespace run (structural recursion, so that the kernel can evaluate it). -/
def collapseAux : Bool → PyStr → PyStr
  | _, [] => []
  | inRun, c :: rest =>
    if isSpc c then
      if inRun then collapseAux true rest else ' ' :: collapseAux true rest
    else c :: collapseAux false rest

/-- The effect of `re.sub(r"\s+", " ", text)`: every maximal whitespace run
becomes a single space. -/
def collapseRuns (l : PyStr) : PyStr := collapseAux false l

/-- Helper for `pySplit`, carrying the (reversed) token being read
(structural recursion, so that the kernel can evaluate it). -/
def pySplitAux : PyStr → PyStr → List PyStr
  | acc, [] =>
    (match acc with
      | [] => []
      | _ => [acc.reverse])
  | acc, c :: rest =>
    if isSpc c then
      (match acc with
        | [] => pySplitAux [] rest
        | _ => acc.reverse :: pySplitAux [] rest)
    else pySplitAux (c :: acc) rest

/-- Python `str.split()` (no separator): split on whitespace runs, dropping
empty pieces. -/
def pySplit (l : PyStr) : List PyStr := pySplitAux [] l

/-- Python `" ".join(tokens)`: concatenation with a single space between
consecutive pieces. -/
def joinSpace : List PyStr → PyStr
  | [] => []
  | [t] => t
  | t :: t' :: ts => t ++ ' ' :: joinSpace (t' :: ts)

/-- The characters inserted by `_NUM_RX.sub(" <num> ", text)` for one digit
run. -/
def numToken : PyStr := [' ', '<', 'n', 'u', 'm', '>', ' ']

/-- Helper for `numMask`, tracking whether the scanner is inside a digit run
(structural recursion, so that the kernel can evaluate it). -/
def numMaskAux : Bool → PyStr → PyStr
  | _, [] => []
  | inRun, c :: rest =>
    if c.isDigit then
      if inRun then numMaskAux true rest else numToken ++ numMaskAux true rest
    else c :: numMaskAux false rest

/-- The effect of `_NUM_RX.sub(" <num> ", text)` with `_NUM_RX = \d+`: every
maximal digit run becomes the text `" <num> "`. -/
def numMask (l : PyStr) : PyStr := numMaskAux false l

/-- The stopword set `_STOPWORDS` of `normalize_text.py`. -/
def STOPWORDS : List PyStr :=
  ["a", "an", "the", "and", "or", "but", "if", "so", "to", "of", "in", "on",
   "at", "by", "for", "with", "as", "is", "are", "was", "were", "be", "been",
   "being", "this", "that", "these", "those", "it", "its", "from", "into",
   "about", "over", "after", "before", "not", "no", "do", "does", "did",
   "doing", "have", "has", "had", "having", "than", "then", "there", "here",
   "such", "very", "can", "could", "should", "would", "may", "might", "will",
   "shall"].map String.toList

/-- External collaborators of the engine (libraries that are not part of the
repository), passed in explicitly: `unidecode.unidecode` (character-wise),
the NLTK Porter stemmer and WordNet lemmatizer together with availability
flags mirroring the `try/except` import guard of `normalize_text.py`, the
sentence-transformer cosine similarity on encoded texts, the YAKE raw
candidate list (text and `top` count), `difflib.SequenceMatcher(None,a,b).ratio()`,
and the float `**` operator. -/
structure PyExt where
  unidec : Char → PyStr
  stemAvail : Bool
  stemF : PyStr → PyStr
  lemAvail : Bool
  lemF : PyStr → PyStr
  embedCos : PyStr → PyStr → ℚ
  yakeKw : PyStr → ℕ → List PyStr
  fuzzSim : PyStr → PyStr → ℚ
  powF : ℚ → ℚ → ℚ

/-- The `text_cleaning` section of the configuration dict. -/
structure TextCleaning where
  remove_stopwords : Bool
  use_synonyms : Bool
  apply_stemming : Bool
  apply_lemmatization : Bool
  normalize_numbers : Bool

/-- The token list built by `normalize_text.normalize_text` up to and
including stopword removal: transliterate, lowercase, optionally mask digit
runs, strip punctuation to spaces, collapse whitespace, tokenize on
whitespace, and optionally drop stopwords. -/
def normTokens (ext : PyExt) (tc : TextCleaning) (text : PyStr) : List PyStr :=
  let t1 := (text.map ext.unidec).flatten
  let t2 := t1.map Char.toLower
  let t3 := if tc.normalize_numbers then numMask t2 else t2
  let t4 := t3.map (fun c => if isWordChar c || isSpc c then c else ' ')
  let t5 := pyStrip (collapseRuns t4)
  let toks0 := pySplit t5
  if tc.remove_stopwords then
    toks0.filter (fun w => !(STOPWORDS.contains w)) else toks0

/-- `normalize_text.normalize_text`: the cleaning/tokenizing pipeline of
`normTokens`, followed by optional stemming and lemmatization (each applied
only when enabled in the options and when the corresponding NLTK tool
imported successfully), rejoined with single spaces.  (`use_synonyms` is
accepted and ignored, exactly as in the source.) -/
def normalize_text (ext : PyExt) (tc : TextCleaning) (text : PyStr) : PyStr :=
  let toks1 := normTokens ext tc text
  let toks2 := if tc.apply_stemming && ext.stemAvail then
      toks1.map ext.stemF else toks1
  let toks3 := if tc.apply_lemmatization && ext.lemAvail then
      toks2.map ext.lemF else toks2
  joinSpace toks3

/-! ### Rounding (CPython `round`: banker's rounding) -/

/-- CPython `round(x)` to an integer: round half to even. -/
def pyRoundInt (q : ℚ) : ℤ :=
  let f := ⌊q⌋
  if q - f < 1/2 then f
  else if 1/2 < q - f then f + 1
  else if 2 ∣ f then f else f + 1

/-- CPython `round(x, nd)` for a non-negative digit count. -/
def pyRound (nd : ℕ) (q : ℚ) : ℚ :=
  (pyRoundInt (q * ((10 ^ nd : ℕ) : ℚ)) : ℚ) / ((10 ^ nd : ℕ) : ℚ)

/-- The teacher rounding `round(x * 4) / 4` of `score_utils.py`: rounding to
the nearest quarter mark. -/
def roundQuarter (q : ℚ) : ℚ :=
  (pyRoundInt (q * 4) : ℚ) / 4

/-- A rational is an integer multiple of `0.25`. -/
def QuarterMul (q : ℚ) : Prop := ∃ k : ℤ, q = (k : ℚ) / 4

/-! ### Configuration (`config.py`) -/

/-- The `weights` section. -/
structure Weights where
  semantic : ℚ
  keyword : ℚ

/-- The `thresholds` section. -/
structure Thresholds where
  min_partial_score : ℚ
  mcq_min_correct_score : ℚ
  min_length_ratio : ℚ
  length_penalty_strength : ℚ

/-- The `semantic` section (the model name is irrelevant to the numeric
contract). -/
structure SemanticCfg where
  rescale_to_unit : Bool

/-- The `keywords` section. -/
structure KwCfg where
  top_k : ℕ
  minlen : ℕ
  use_fuzzy : Bool
  fuzzy_threshold : ℚ

/-- The configuration dict handed to the scoring functions.  The `selection`
section is *not* read through this parameter by the engine: the selection
defaults are read from the module-level `CONFIG` (see `CONFIGselection`). -/
structure Config where
  weights : Weights
  thresholds : Thresholds
  semantic : SemanticCfg
  text_cleaning : TextCleaning
  keywords : KwCfg

/-! ### Semantic similarity (`semantic_similarity.py`) -/

/-- `semantic_similarity.semantic_similarity`: 0 on empty raw or empty
normalized input, else the (optionally `(cos+1)/2`-rescaled) cosine
similarity of the embedded normalized texts, clamped to `[0,1]` and rounded
to 4 decimals.  The embedding model is the external `embedCos`. -/
def semantic_similarity (ext : PyExt) (cfg : Config) (text1 text2 : PyStr) : ℚ :=
  if text1 = [] ∨ text2 = [] then 0
  else
    let t1 := normalize_text ext cfg.text_cleaning text1
    let t2 := normalize_text ext cfg.text_cleaning text2
    if t1 = [] ∨ t2 = [] then 0
    else
      let simRaw := ext.embedCos t1 t2
      let sim := if cfg.semantic.rescale_to_unit then (simRaw + 1) / 2 else simRaw
      pyRound 4 (max 0 (min 1 sim))

/-! ### Keyword extraction and matching (`keyword_extractor.py`) -/

/-- The filtering loop of `_keywords`: strip each YAKE candidate, keep it when
it has at least `minlen` characters and was not seen before, and stop as soon
as `k` keywords were collected (the length test runs after each candidate, as
in the source's `break`). -/
def kwFilterLoop (k minlen : ℕ) : List PyStr → List PyStr → List PyStr
  | [], out => out
  | c :: rest, out =>
    let c' := pyStrip c
    let out' := if minlen ≤ c'.length ∧ c' ∉ out then out ++ [c'] else out
    if k ≤ out'.length then out' else kwFilterLoop k minlen rest out'

/-- `_keywords`: up to `k` unique keyword candidates of length at least
`minlen`, extracted from the raw text by YAKE (over-generating `2 k`
candidates).  Empty text yields no keywords. -/
def keywordCandidates (ext : PyExt) (text : PyStr) (k minlen : ℕ) : List PyStr :=
  if text = [] then []
  else kwFilterLoop k minlen (ext.yakeKw text (k * 2)) []

/-- Python `max(xs, default=d)`. -/
def pyMaxD (d : ℚ) : List ℚ → ℚ
  | [] => d
  | x :: xs => xs.foldl max x

/-- The hit test of `keyword_match_score` for one extracted keyword: skip
keywords whose normalization is empty; otherwise an exact normalized-token
hit, or (when fuzzy matching is on) a best `SequenceMatcher` ratio against
the student tokens reaching `fuzzy_threshold`.  (The source iterates over
`set(s_norm.split())`; only membership and maxima are used, so the token
list is equivalent.) -/
def keywordHit (ext : PyExt) (cfg : Config) (sTokens : List PyStr) (key : PyStr) : Bool :=
  let kNorm := normalize_text ext cfg.text_cleaning key
  if kNorm = [] then false
  else if kNorm ∈ sTokens then true
  else if cfg.keywords.use_fuzzy then
    decide (cfg.keywords.fuzzy_threshold ≤ pyMaxD 0 (sTokens.map (ext.fuzzSim kNorm)))
  else false

/-- `keyword_match_score`: hits over number of extracted keywords, clamped to
`[0,1]` and rounded to 4 decimals; 0 when either raw input is empty, when the
normalized student answer is empty, or when no keywords were extracted. -/
def keyword_match_score (ext : PyExt) (cfg : Config)
    (model_answer student_answer : PyStr) : ℚ :=
  if model_answer = [] ∨ student_answer = [] then 0
  else
    let keys := keywordCandidates ext model_answer cfg.keywords.top_k cfg.keywords.minlen
    let sNorm := normalize_text ext cfg.text_cleaning student_answer
    if sNorm = [] then 0
    else
      let sTokens := pySplit sNorm
      let hits := (keys.filter (keywordHit ext cfg sTokens)).length
      if keys = [] then 0
      else pyRound 4 (max 0 (min 1 ((hits : ℚ) / keys.length)))

/-! ### Subpart scoring (`score_utils.py`) -/

/-- Embeds `_length_ratio` (renamed): the ratio of normalized token counts
student over model, and 0 when either normalization is empty (or the model
token count is 0). -/
def length_ratio_val (ext : PyExt) (cfg : Config)
    (model_answer student_answer : PyStr) : ℚ :=
  let mNorm := normalize_text ext cfg.text_cleaning model_answer
  let sNorm := normalize_text ext cfg.text_cleaning student_answer
  if mNorm = [] ∨ sNorm = [] then 0
  else
    let mLen := (pySplit mNorm).length
    let sLen := (pySplit sNorm).length
    if mLen = 0 then 0 else (sLen : ℚ) / (mLen : ℚ)

/-- `compute_subpart_score`: returns `(marks, semantic, keyword)`.  Blank
student answers get `(0,0,0)`.  MCQ: full `max_marks` iff the semantic score
reaches `mcq_min_correct_score`, teacher-rounded.  Subjective: weighted blend,
soft length penalty for short answers, clamp, hard floor below
`min_partial_score`, mid-range bump, `× max_marks`, teacher-rounded. -/
def compute_subpart_score (ext : PyExt) (cfg : Config)
    (model_answer student_answer : PyStr) (max_marks : ℚ) (mcqFlag : Bool) :
    ℚ × ℚ × ℚ :=
  if pyStrip student_answer = [] then (0, 0, 0)
  else
    let sem := semantic_similarity ext cfg model_answer student_answer
    let kw := keyword_match_score ext cfg model_answer student_answer
    let combined := cfg.weights.semantic * sem + cfg.weights.keyword * kw
    let minPartial := cfg.thresholds.min_partial_score
    if mcqFlag then
      let fm := if cfg.thresholds.mcq_min_correct_score ≤ sem then max_marks else 0
      (roundQuarter fm, pyRound 4 sem, pyRound 4 kw)
    else
      let lr := length_ratio_val ext cfg model_answer student_answer
      let mlr := cfg.thresholds.min_length_ratio
      let lps := cfg.thresholds.length_penalty_strength
      let combined1 := if 0 < mlr ∧ 0 < lr ∧ lr < mlr then
          combined * max (3/10) (min 1 (ext.powF (lr / mlr) lps))
        else combined
      let combined2 := max 0 (min 1 combined1)
      let fm := if combined2 < minPartial then 0
        else (if combined2 < 1/2 then min (1/2) (combined2 + 1/10) else combined2) * max_marks
      (roundQuarter fm, pyRound 4 sem, pyRound 4 kw)

/-! ### MCQ detection and choice picking (`choice_handler.py`) -/

/-- The option alphabet `_MCQ_LETTERS`. -/
def MCQ_LETTERS : List Char := ['a', 'b', 'c', 'd', 'A', 'B', 'C', 'D']

/-- Membership in the option alphabet (the character class `[a-dA-D]`). -/
def isOptLetter (c : Char) : Bool := MCQ_LETTERS.contains c

/-- `is_mcq`: the trimmed model answer starts with a parenthesized option
letter, i.e. it matches `^\(\s*[a-dA-D]\s*\)`. -/
def is_mcq (s : PyStr) : Bool :=
  match pyStrip s with
  | '(' :: rest =>
    match rest.dropWhile isSpc with
    | c :: rest2 =>
      if isOptLetter c then
        match rest2.dropWhile isSpc with
        | ')' :: _ => true
        | _ => false
      else false
    | [] => false
  | _ => false

/-- All matches of `re.findall(r"\(([a-dA-D])\)", s)`: the regex engine scans
left to right and restarts after each 3-character match (overlapping matches
of this shape are impossible, so this enumerates every occurrence). -/
def parenMatches : PyStr → List Char
  | c1 :: c2 :: c3 :: rest =>
    if c1 = '(' ∧ isOptLetter c2 = true ∧ c3 = ')' then c2 :: parenMatches rest
    else parenMatches (c2 :: c3 :: rest)
  | _ => []

/-- Helper for `re.findall(r"\b([a-dA-D])\b", s)`: a free-standing option
letter is one whose neighbours (when present) are not word characters;
`prev` carries the previously scanned character. -/
def looseAux : Option Char → PyStr → List Char
  | _, [] => []
  | prev, c :: rest =>
    let okPrev := match prev with
      | none => true
      | some p => !isWordChar p
    let okNext := match rest with
      | [] => true
      | d :: _ => !isWordChar d
    if isOptLetter c && okPrev && okNext then c :: looseAux (some c) rest
    else looseAux (some c) rest

/-- All matches of `re.findall(r"\b([a-dA-D])\b", s)`. -/
def looseMatches (s : PyStr) : List Char := looseAux none s

/-- The candidate list of `pick_student_choice`: parenthesized matches, then
free-standing matches, filtered to the option alphabet and upper-cased. -/
def mcqCandidates (s : PyStr) : List Char :=
  ((parenMatches s ++ looseMatches s).filter isOptLetter).map Char.toUpper

/-- `pick_student_choice`: `none` when no candidate letters occur or when the
distinct set of candidates has more than one element; otherwise the first
candidate (already upper-cased). -/
def pick_student_choice (s : PyStr) : Option Char :=
  let cands := mcqCandidates s
  if cands = [] then none
  else if 1 < cands.dedup.length then none
  else cands.head?

/-! ### Student documents and alignment (`align_answers.py`) -/

/-- A parsed JSON-ish Python value as traversed by the aligner: strings,
lists, dicts (insertion-ordered, hence association lists), and anything else
(numbers, booleans, `None`), which the aligner flattens to `""`. -/
inductive JVal where
  | str (s : PyStr)
  | arr (xs : List JVal)
  | obj (fields : List (PyStr × JVal))
  | other

mutual

/-- Computable size of a JSON value, used as a fuel bound for the
recursions below (strictly larger than any child's size). -/
def jSize : JVal → ℕ
  | .str _ => 1
  | .other => 1
  | .arr xs => 1 + jSizeL xs
  | .obj fs => 1 + jSizeF fs

/-- Size of a list of JSON values. -/
def jSizeL : List JVal → ℕ
  | [] => 0
  | v :: vs => jSize v + jSizeL vs

/-- Size of a JSON object's field list. -/
def jSizeF : List (PyStr × JVal) → ℕ
  | [] => 0
  | kv :: kvs => jSize kv.2 + jSizeF kvs

end

/-- Fuel-indexed helper for `_flatten_value` (structural recursion on the
fuel, so that the kernel can evaluate it; called with fuel at least the term
size, which every recursive call strictly decreases, so the zero-fuel arms
are never reached). -/
def flattenFuel : ℕ → JVal → PyStr
  | _, .str s => s
  | _, .other => []
  | 0, .arr _ => []
  | 0, .obj _ => []
  | n + 1, .arr xs => joinSpace (xs.map (flattenFuel n))
  | n + 1, .obj fs => joinSpace (fs.map (fun kv => flattenFuel n kv.2))

/-- `_flatten_value`: strings stay, lists and dict values are flattened
recursively and space-joined, anything else becomes empty. -/
def flattenValue (v : JVal) : PyStr := flattenFuel (jSize v) v

/-- `_norm_id` of `align_answers.py`: strip, remove parentheses and periods,
lowercase; empty input stays empty. -/
def normIdA (s : PyStr) : PyStr :=
  if s = [] then []
  else ((pyStrip s).filter (fun c => !(c = '(' || c = ')' || c = '.'))).map Char.toLower

/-- `_extract_digits`: the digit characters of a string, in order (the
concatenation of all `\d+` matches). -/
def digitsOf (s : PyStr) : PyStr := s.filter Char.isDigit

/-- `_candidate_keys_for`: the common spellings of a question label.  (The
source builds a set; only membership is used, so a list is equivalent.) -/
def candidateKeys (qnum : PyStr) : List PyStr :=
  [('q' :: qnum), ("question".toList ++ qnum), ("ques".toList ++ qnum), qnum,
   ('q' :: '-' :: qnum), ("question-".toList ++ qnum), ("ques-".toList ++ qnum),
   ('q' :: ' ' :: qnum), ("question ".toList ++ qnum), ("ques ".toList ++ qnum)]

/-- The key test of `_find_question_section`: the folded key is one of the
candidate spellings, or its digit signature equals the (nonempty) wanted
digit signature. -/
def keyMatchesWant (wantNorm : List PyStr) (wantDigits : PyStr) (k : PyStr) : Bool :=
  let kn := normIdA k
  decide (kn ∈ wantNorm) || (decide (digitsOf kn = wantDigits) && decide (wantDigits ≠ []))

/-- `_find_question_section`: first a top-level key match, then a match one
level deeper inside dict-valued entries. -/
def findQuestionSection (root : List (PyStr × JVal)) (qnum : PyStr) : Option JVal :=
  let wantNorm := (candidateKeys qnum).map normIdA
  let wantDigits := digitsOf qnum
  match root.find? (fun kv => keyMatchesWant wantNorm wantDigits kv.1) with
  | some kv => some kv.2
  | none =>
    root.findSome? (fun kv =>
      match kv.2 with
      | JVal.obj fs =>
        (fs.find? (fun kv2 => keyMatchesWant wantNorm wantDigits kv2.1)).map (fun kv2 => kv2.2)
      | _ => none)

/-- Python-dict lookup on an association list. -/
def dictGet {α : Type} : List (PyStr × α) → PyStr → Option α
  | [], _ => none
  | (k, v) :: rest, key => if k = key then some v else dictGet rest key

/-- Python-dict assignment on an association list: replace in place when the
key exists, append otherwise. -/
def dictInsert {α : Type} : List (PyStr × α) → PyStr → α → List (PyStr × α)
  | [], k, v => [(k, v)]
  | (k', v') :: rest, k, v =>
    if k' = k then (k', v) :: rest else (k', v') :: dictInsert rest k v

/-- One accumulation step of the aligner's `walk` closure:
`extracted.setdefault(keyn, "")` followed by
`extracted[keyn] = (extracted[keyn] + " " + text).strip()`. -/
def accAdd (acc : List (PyStr × PyStr)) (k : PyStr) (text : PyStr) :
    List (PyStr × PyStr) :=
  let cur := (dictGet acc k).getD []
  dictInsert acc k (pyStrip (cur ++ ' ' :: text))

/-- The `walk` closure of `align_student_to_model`, with the mutated
`extracted` dict made an explicit accumulator and the recursion driven by a
fuel counter (structural, so that the kernel can evaluate it; the fuel is
chosen at least the value's term size, which every descent strictly
decreases, so the zero-fuel arm is never reached).  On a key that folds to a
desired subpart id: flatten the whole value, append it (when non-blank) to
that id's accumulated text, and keep walking inside the same subtree
(`for kk, vv in val.items(): walk(kk, vv)` on dicts,
`for item in val: walk(key, item)` on lists). -/
def walkJFuel (desired : List PyStr) :
    ℕ → Option PyStr → JVal → List (PyStr × PyStr) → List (PyStr × PyStr)
  | 0, _, _, acc => acc
  | n + 1, key, val, acc =>
    let keyn := match key with
      | some k => normIdA k
      | none => ([] : PyStr)
    if keyn ≠ [] ∧ keyn ∈ desired then
      let text := flattenValue val
      let acc1 := if pyStrip text ≠ [] then accAdd acc keyn text else acc
      match val with
      | JVal.obj fs => fs.foldl (fun a kv => walkJFuel desired n (some kv.1) kv.2 a) acc1
      | JVal.arr xs => xs.foldl (fun a x => walkJFuel desired n key x a) acc1
      | _ => acc1
    else
      match val with
      | JVal.obj fs => fs.foldl (fun a kv => walkJFuel desired n (some kv.1) kv.2 a) acc
      | JVal.arr xs => xs.foldl (fun a x => walkJFuel desired n key x a) acc
      | _ => acc

/-- The top-level walk over the located section's fields
(`for k, v in section.items(): walk(k, v)`). -/
def walkFields (desired : List PyStr) (fs : List (PyStr × JVal))
    (acc : List (PyStr × PyStr)) : List (PyStr × PyStr) :=
  fs.foldl (fun a kv => walkJFuel desired (jSize kv.2 + 1) (some kv.1) kv.2 a) acc

/-! ### Model documents (`evaluation_engine.py` data shapes) -/

/-- The value of the `attempt_required` field: the string `"all"` (or any
other string) or an integer, as distinguished by the source's
`== "all"` / `isinstance(..., int)` tests. -/
inductive ARVal where
  | str (s : PyStr)
  | int (n : ℤ)
deriving DecidableEq

/-- One subpart of a model question. -/
structure ModelSubpart where
  id : PyStr
  model_answer : PyStr
  marks : ℚ
deriving DecidableEq

/-- One model question.  Optional fields model the `.get(...)` accesses of the
source. -/
structure ModelQuestion where
  question_number : PyStr
  total_marks : Option ℚ
  attempt_required : Option ARVal
  selection_policy : Option PyStr
  subparts : List ModelSubpart
deriving DecidableEq

/-- The `selection` section of the module-level `CONFIG`. -/
structure SelectionCfg where
  default_policy : PyStr
  default_attempt_required : ARVal

/-- The `selection` values of the repository's `config.py`:
`default_policy = "none"`, `default_attempt_required = "all"`.
`_get_attempt_required` and `_get_selection_policy` read these from the
module-level `CONFIG`, not from the config argument of
`evaluate_student_answers`. -/
def CONFIGselection : SelectionCfg :=
  { default_policy := "none".toList
    default_attempt_required := ARVal.str ("all".toList) }

/-- `_get_attempt_required`: the question's value if present (an `is not
None` test), else the module-level default. -/
def getAttemptRequired (q : ModelQuestion) : ARVal :=
  match q.attempt_required with
  | some ar => ar
  | none => CONFIGselection.default_attempt_required

/-- `_get_selection_policy`: the question's value if truthy (non-empty
string), else the module-level default. -/
def getSelectionPolicy (q : ModelQuestion) : PyStr :=
  match q.selection_policy with
  | some pol => if pol = [] then CONFIGselection.default_policy else pol
  | none => CONFIGselection.default_policy

/-- `_norm_id` of `evaluation_engine.py`: lowercase, then remove periods and
parentheses. -/
def normIdE (s : PyStr) : PyStr :=
  (s.map Char.toLower).filter (fun c => !(c = '.' || c = '(' || c = ')'))

/-- Python `l[:n]` for an integer bound: clamps at 0 for negative results,
counts from the end for negative `n`. -/
def pySliceTo {α : Type} (l : List α) (n : ℤ) : List α :=
  if 0 ≤ n then l.take n.toNat
  else l.take ((l.length : ℤ) + n).toNat

/-- `align_student_to_model`: locate the question's section by digit
signature, walk it extracting text for the expected (folded) subpart ids,
with the single-blob fallback for non-dict sections of 1-subpart questions,
and keep only expected ids. -/
def align_student_to_model (q : ModelQuestion) (root : List (PyStr × JVal)) :
    List (PyStr × PyStr) :=
  let desired := q.subparts.map (fun sp => normIdA sp.id)
  let rawQ := pyStrip q.question_number
  let qDigits := digitsOf rawQ
  match findQuestionSection root qDigits with
  | none => []
  | some sect =>
    let extracted := match sect with
      | JVal.obj fs => walkFields desired fs []
      | _ => match desired with
        | [d] => [(d, flattenValue sect)]
        | _ => []
    extracted.filter (fun kv => kv.1 ∈ desired)

/-- `_select_subparts_to_score`: all (folded) subpart ids when
`attempt_required == "all"` or the policy is `"none"`; under `"first_n"` with
an integer `attempt_required`, the first `n` ids whose aligned text is
non-blank; otherwise all ids. -/
def selectSubpartsToScore (q : ModelQuestion) (aligned : List (PyStr × PyStr)) :
    List PyStr :=
  let ids := q.subparts.map (fun sp => sp.id)
  let normIds := ids.map normIdE
  let ar := getAttemptRequired q
  let pol := getSelectionPolicy q
  if ar = ARVal.str ("all".toList) ∨ pol = "none".toList then normIds
  else
    match ar with
    | ARVal.int n =>
      if pol = "first_n".toList then
        pySliceTo (normIds.filter (fun i =>
          match dictGet aligned i with
          | some v => decide (pyStrip v ≠ [])
          | none => false)) n
      else normIds
    | _ => normIds

/-! ### The evaluation orchestrator (`evaluation_engine.py`) -/

/-- One subpart's entry in the report. -/
structure SubpartResult where
  semantic_score : ℚ
  keyword_score : ℚ
  score : ℚ
  marks : ℚ
deriving DecidableEq

/-- One question's entry in the report.  (The static `policy` metadata
sub-dict of the source is descriptive only and not modelled.) -/
structure QuestionResult where
  subparts : List (PyStr × SubpartResult)
  total_marks : ℚ
  final_score : ℚ
  notes : List PyStr
deriving DecidableEq

/-- The full evaluation report. -/
structure Report where
  total_awarded : ℚ
  total_max : ℚ
  percentage : ℚ
  by_question : List (PyStr × QuestionResult)
deriving DecidableEq

/-- The all-zero subpart entry every subpart starts from. -/
def zeroSubResult : SubpartResult :=
  { semantic_score := 0, keyword_score := 0, score := 0, marks := 0 }

/-- The note recorded when the policy selected nothing although aligned text
existed. -/
def noteNoSubpartSelected : PyStr :=
  "No subpart selected by policy (first_n).".toList

/-- The note recorded when alignment produced nothing and nothing was
selected. -/
def noteNoAnswers : PyStr :=
  "No answers found for this question.".toList

/-- The per-selected-subpart scoring step of the orchestrator loop: MCQ-shaped
model answers go through `pick_student_choice` (zero on no/ambiguous choice,
else the canonical `(X)` re-rendering scored as MCQ), everything else through
the subjective scorer.  `sid` is the selected folded id, `sp` the subpart
found for it in `sp_by_norm`. -/
def scoreOne (ext : PyExt) (cfg : Config) (aligned : List (PyStr × PyStr))
    (sid : PyStr) (sp : ModelSubpart) : ℚ × ℚ × ℚ :=
  let modelAns := sp.model_answer
  let studentText := (dictGet aligned sid).getD []
  if is_mcq modelAns then
    match pick_student_choice studentText with
    | none => (0, 0, 0)
    | some c => compute_subpart_score ext cfg modelAns ['(', c, ')'] sp.marks true
  else compute_subpart_score ext cfg modelAns studentText sp.marks false

/-- One iteration of the orchestrator's `for sid in selected_ids` loop: skip
ids absent from `sp_by_norm`, otherwise score the subpart, write its report
entry (4-decimal rounded) under the subpart's raw id, and accumulate the raw
marks. -/
def evalStep (ext : PyExt) (cfg : Config) (aligned : List (PyStr × PyStr))
    (spByNorm : List (PyStr × ModelSubpart))
    (st : List (PyStr × SubpartResult) × ℚ) (sid : PyStr) :
    List (PyStr × SubpartResult) × ℚ :=
  match dictGet spByNorm sid with
  | none => st
  | some sp =>
    let r := scoreOne ext cfg aligned sid sp
    (dictInsert st.1 sp.id
      { semantic_score := r.2.1
        keyword_score := r.2.2
        score := pyRound 4 (cfg.weights.semantic * r.2.1 + cfg.weights.keyword * r.2.2)
        marks := pyRound 4 r.1 },
     st.2 + r.1)

/-- The body of the per-question loop of `evaluate_student_answers`,
returning the question's report entry together with the raw (un-rounded)
awarded sum that the caller accumulates into `total_awarded`. -/
def evalQuestionRaw (ext : PyExt) (cfg : Config) (q : ModelQuestion)
    (student : List (PyStr × JVal)) : QuestionResult × ℚ :=
  let subparts := q.subparts
  let totalMarksQ := match q.total_marks with
    | some t => t
    | none => (subparts.map (fun sp => sp.marks)).sum
  let aligned := align_student_to_model q student
  let selectedIds := selectSubpartsToScore q aligned
  let initSub := subparts.foldl (fun d sp => dictInsert d sp.id zeroSubResult) []
  let notes := if selectedIds = [] then
      (if aligned ≠ [] then [noteNoSubpartSelected] else [noteNoAnswers])
    else []
  let spByNorm := subparts.foldl (fun d sp => dictInsert d (normIdE sp.id) sp) []
  let res := selectedIds.foldl (evalStep ext cfg aligned spByNorm) (initSub, 0)
  ({ subparts := res.1
     total_marks := totalMarksQ
     final_score := pyRound 4 res.2
     notes := notes },
   res.2)

/-- The question entry recorded in the report. -/
def evalQuestion (ext : PyExt) (cfg : Config) (q : ModelQuestion)
    (student : List (PyStr × JVal)) : QuestionResult :=
  (evalQuestionRaw ext cfg q student).1

/-- The report key for a question: `str(question_number).strip()` with every
`Q`/`q` removed, stripped again. -/
def qKeyOf (q : ModelQuestion) : PyStr :=
  pyStrip ((pyStrip q.question_number).filter (fun c => !(c = 'Q' || c = 'q')))

/-- One iteration of the per-question loop of `evaluate_student_answers`:
record the question's entry under its normalized number and accumulate the
raw awarded and maximum totals. -/
def evalAccum (ext : PyExt) (cfg : Config) (student : List (PyStr × JVal))
    (rep : Report) (q : ModelQuestion) : Report :=
  let r := evalQuestionRaw ext cfg q student
  { rep with
    by_question := dictInsert rep.by_question (qKeyOf q) r.1
    total_awarded := rep.total_awarded + r.2
    total_max := rep.total_max + r.1.total_marks }

/-- `evaluate_student_answers` on an already-parsed model document (its
question list) and student document: per-question entries keyed by the
normalized question number, raw awarded and maximum totals, final rounding of
the totals and the percentage. -/
def evaluate_student_answers (ext : PyExt) (cfg : Config)
    (questions : List ModelQuestion) (student : List (PyStr × JVal)) : Report :=
  let rep := questions.foldl (evalAccum ext cfg student)
    { total_awarded := 0, total_max := 0, percentage := 0, by_question := [] }
  let ta := pyRound 4 rep.total_awarded
  let tm := pyRound 1 rep.total_max
  { rep with
    total_awarded := ta
    total_max := tm
    percentage := if tm ≠ 0 then pyRound 2 (ta / tm * 100) else 0 }

/-! ### Claim-side formulas (written from the specification's words, for
refinement comparisons) -/

/-- The marks formula of claim C1, transcribed from the specification's
subjective-branch sentences: `combined = w_semantic*semantic +
w_keyword*keyword`; whenever the token-count ratio student/model is below
`min_length_ratio`, multiply by `clamp((ratio/min_length_ratio)^strength,
0.3, 1.0)`; clamp to `[0,1]`; marks 0 below `min_partial_score`, else the
mid-range bump and `combined * max_marks` rounded to the nearest 0.25.
(The ratio is taken as 0 when the model token count is 0, matching the
division-by-zero-free reading of the spec.) -/
def claimC1marks (ext : PyExt) (cfg : Config) (model student : PyStr)
    (max_marks : ℚ) : ℚ :=
  let sem := semantic_similarity ext cfg model student
  let kw := keyword_match_score ext cfg model student
  let combined := cfg.weights.semantic * sem + cfg.weights.keyword * kw
  let mNorm := normalize_text ext cfg.text_cleaning model
  let sNorm := normalize_text ext cfg.text_cleaning student
  let lr := ((pySplit sNorm).length : ℚ) / ((pySplit mNorm).length : ℚ)
  let mlr := cfg.thresholds.min_length_ratio
  let combined1 := if lr < mlr then
      combined * max (3/10) (min 1 (ext.powF (lr / mlr) cfg.thresholds.length_penalty_strength))
    else combined
  let combined2 := max 0 (min 1 combined1)
  if combined2 < cfg.thresholds.min_partial_score then 0
  else roundQuarter
    ((if combined2 < 1/2 then min (1/2) (combined2 + 1/10) else combined2) * max_marks)

/-- The keyword score formula of claim C7, transcribed from the
specification's words: hits over number of extracted keywords, without
rounding; a hit is an exact occurrence of the normalized keyword among the
student's normalized tokens or, with fuzzy matching enabled, a best token
similarity ratio reaching `fuzzy_threshold`; 0 when either input is empty or
no keywords were extracted. -/
def claimC7score (ext : PyExt) (cfg : Config)
    (model_answer student_answer : PyStr) : ℚ :=
  if model_answer = [] ∨ student_answer = [] then 0
  else
    let keys := keywordCandidates ext model_answer cfg.keywords.top_k cfg.keywords.minlen
    if keys = [] then 0
    else
      let sTokens := pySplit (normalize_text ext cfg.text_cleaning student_answer)
      let hits := (keys.filter (fun key =>
        let kNorm := normalize_text ext cfg.text_cleaning key
        if kNorm ∈ sTokens then true
        else if cfg.keywords.use_fuzzy then
          decide (cfg.keywords.fuzzy_threshold ≤ pyMaxD 0 (sTokens.map (ext.fuzzSim kNorm)))
        else false)).length
      (hits : ℚ) / keys.length

/-! ### Concrete fixtures used by witnesses and counterexamples -/

/-- A benign instantiation of the external collaborators: `unidecode` is the
identity character-wise, NLTK is unavailable, the embedding reports perfect
similarity, YAKE yields nothing, the fuzzy ratio is 0, and power is the
identity in its first argument. -/
def extDefault : PyExt :=
  { unidec := fun c => [c]
    stemAvail := false
    stemF := id
    lemAvail := false
    lemF := id
    embedCos := fun _ _ => 1
    yakeKw := fun _ _ => []
    fuzzSim := fun _ _ => 0
    powF := fun a _ => a }

/-- The numeric configuration of the repository's `config.py` (weights 0.8
and 0.2; thresholds 0.20, 0.60, 0.15, 0.4; rescaling on; default text
cleaning; keywords top 15, minimum length 3, fuzzy on at 0.88). -/
def cfgDefault : Config :=
  { weights := { semantic := 4/5, keyword := 1/5 }
    thresholds :=
      { min_partial_score := 1/5
        mcq_min_correct_score := 3/5
        min_length_ratio := 3/20
        length_penalty_strength := 2/5 }
    semantic := { rescale_to_unit := true }
    text_cleaning :=
      { remove_stopwords := true
        use_synonyms := false
        apply_stemming := false
        apply_lemmatization := false
        normalize_numbers := false }
    keywords :=
      { top_k := 15
        minlen := 3
        use_fuzzy := true
        fuzzy_threshold := 22/25 } }

/-- Text-cleaning options with stemming enabled (and stopword removal on, as
in the repository's configuration). -/
def tcStem : TextCleaning :=
  { remove_stopwords := true
    use_synonyms := false
    apply_stemming := true
    apply_lemmatization := false
    normalize_numbers := false }

/-- External collaborators with an available stemmer that models the NLTK
Porter stemmer on the inputs exercised here: Porter's step-1a `S`-deletion
maps `cans` to `can` and leaves `can` unchanged. -/
def extStem : PyExt :=
  { extDefault with
    stemAvail := true
    stemF := fun t => if t = "cans".toList then "can".toList else t }

/-- A question with one subpart and default selection settings. -/
def qOneSub : ModelQuestion :=
  { question_number := "1".toList
    total_marks := some 5
    attempt_required := none
    selection_policy := none
    subparts := [{ id := "a".toList, model_answer := "x".toList, marks := 5 }] }

/-- The same question under the `first_n` policy requiring one attempt. -/
def qFirstN : ModelQuestion :=
  { qOneSub with
    attempt_required := some (ARVal.int 1)
    selection_policy := some ("first_n".toList) }

/-- A two-subpart question under `first_n` requiring one attempt. -/
def qTwoFirstN : ModelQuestion :=
  { question_number := "1".toList
    total_marks := some 10
    attempt_required := some (ARVal.int 1)
    selection_policy := some ("first_n".toList)
    subparts :=
      [{ id := "a".toList, model_answer := "x".toList, marks := 5 },
       { id := "b".toList, model_answer := "y".toList, marks := 5 }] }

/-- A student document answering both subparts of question 1. -/
def studTwo : List (PyStr × JVal) :=
  [("Q1".toList, JVal.obj
    [("a".toList, JVal.str ("ans one".toList)),
     ("b".toList, JVal.str ("ans two".toList))])]

/-- An MCQ-shaped subpart worth 0.3 marks (not a quarter multiple). -/
def spMcq : ModelSubpart :=
  { id := "a".toList, model_answer := "(b) paris".toList, marks := 3/10 }

/-- An aligned answer choosing option (b). -/
def alignedMcq : List (PyStr × PyStr) :=
  [("a".toList, "(b)".toList)]

/-- External collaborators whose keyword extractor yields three candidates. -/
def extKw : PyExt :=
  { extDefault with
    yakeKw := fun _ _ => ["apple".toList, "banana".toList, "cherry".toList] }

/-- The default configuration with fuzzy keyword matching turned off. -/
def cfgNoFuzzy : Config :=
  { cfgDefault with
    keywords :=
      { top_k := 15
        minlen := 3
        use_fuzzy := false
        fuzzy_threshold := 22/25 } }

/-- An MCQ question worth 1 mark, numbered 1. -/
def qMcqOne : ModelQuestion :=
  { question_number := "1".toList
    total_marks := some 1
    attempt_required := none
    selection_policy := none
    subparts := [{ id := "a".toList, model_answer := "(b) x".toList, marks := 1 }] }

/-- A second, subpart-free question also numbered 1 (clashing report key). -/
def qEmptyOne : ModelQuestion :=
  { question_number := "1".toList
    total_marks := some 0
    attempt_required := none
    selection_policy := none
    subparts := [] }

/-- A question whose two subparts fold to the same normalized id. -/
def qDupIds : ModelQuestion :=
  { question_number := "1".toList
    total_marks := some 2
    attempt_required := none
    selection_policy := none
    subparts :=
      [{ id := "a".toList, model_answer := "(b) x".toList, marks := 1 },
       { id := "A".toList, model_answer := "(b) x".toList, marks := 1 }] }

/-- A student document answering subpart (a) of question 1 with choice (b). -/
def studMcq : List (PyStr × JVal) :=
  [("Q1".toList, JVal.obj [("a".toList, JVal.str ("(b)".toList))])]

/-- The character-level invariant of normalized tokens: word characters,
not upper case, and digit-free whenever number masking is on. -/
def goodTokChar (tc : TextCleaning) (c : Char) : Prop :=
  isWordChar c = true ∧ Char.isUpper c = false ∧
    (tc.normalize_numbers = true → c.isDigit = false)

/-! ### Character-class facts used by the normalizer proofs -/

/-- Unfolding of `isSpc` membership into the six concrete characters. -/
theorem isSpc_cases {c : Char} (h : isSpc c = true) :
    c = ' ' ∨ c = '\t' ∨ c = '\n' ∨ c = '\r' ∨ c = '\x0b' ∨ c = '\x0c' := by
  simpa [isSpc, Bool.or_eq_true, decide_eq_true_eq, or_assoc] using h

/-- A word character is never whitespace. -/
theorem isSpc_of_word {c : Char} (h : isWordChar c = true) : isSpc c = false := by
  by_contra hne
  rcases isSpc_cases (by simpa using Bool.not_eq_false _ ▸ hne) with h' | h' | h' | h' | h' | h' <;>
    (subst h'; exact absurd h (by decide))

/-- Bridge from `UInt32` order to `Nat` order. -/
theorem uint32_le_toNat {a b : UInt32} (h : a ≤ b) : a.toNat ≤ b.toNat := by
  rw [UInt32.le_def] at h
  exact BitVec.le_def.mp h

/-- Bridge from `Nat` order to `UInt32` order. -/
theorem uint32_ge_toNat {a b : UInt32} (h : a.toNat ≤ b.toNat) : a ≤ b := by
  rw [UInt32.le_def]
  exact BitVec.le_def.mpr h

/-- Characterization of `Char.isUpper` through `Char.toNat`. -/
theorem isUpper_iff (c : Char) :
    Char.isUpper c = true ↔ 65 ≤ c.toNat ∧ c.toNat ≤ 90 := by
  unfold Char.isUpper
  simp only [Bool.and_eq_true, decide_eq_true_eq, ge_iff_le]
  constructor
  · rintro ⟨h1, h2⟩
    exact ⟨uint32_le_toNat h1, uint32_le_toNat h2⟩
  · rintro ⟨h1, h2⟩
    exact ⟨uint32_ge_toNat h1, uint32_ge_toNat h2⟩

/-- Characterization of `Char.isLower` through `Char.toNat`. -/
theorem isLower_iff (c : Char) :
    Char.isLower c = true ↔ 97 ≤ c.toNat ∧ c.toNat ≤ 122 := by
  unfold Char.isLower
  simp only [Bool.and_eq_true, decide_eq_true_eq, ge_iff_le]
  constructor
  · rintro ⟨h1, h2⟩
    exact ⟨uint32_le_toNat h1, uint32_le_toNat h2⟩
  · rintro ⟨h1, h2⟩
    exact ⟨uint32_ge_toNat h1, uint32_ge_toNat h2⟩

/-- Characterization of `Char.isDigit` through `Char.toNat`. -/
theorem isDigit_iff (c : Char) :
    Char.isDigit c = true ↔ 48 ≤ c.toNat ∧ c.toNat ≤ 57 := by
  unfold Char.isDigit
  simp only [Bool.and_eq_true, decide_eq_true_eq, ge_iff_le]
  constructor
  · rintro ⟨h1, h2⟩
    exact ⟨uint32_le_toNat h1, uint32_le_toNat h2⟩
  · rintro ⟨h1, h2⟩
    exact ⟨uint32_ge_toNat h1, uint32_ge_toNat h2⟩

/-- Word characters lie in the ASCII range. -/
theorem toNat_lt_of_word {c : Char} (h : isWordChar c = true) : c.toNat < 128 := by
  simp only [isWordChar, Char.isAlphanum, Char.isAlpha,
    Bool.or_eq_true, decide_eq_true_eq] at h
  rcases h with ((hu | hl) | hd) | he
  · have := (isUpper_iff c).mp hu
    omega
  · have := (isLower_iff c).mp hl
    omega
  · have := (isDigit_iff c).mp hd
    omega
  · subst he
    decide

/-- `Char.toLower` never produces an upper-case basic-latin letter. -/
theorem isUpper_toLower (c : Char) : Char.isUpper (Char.toLower c) = false := by
  rw [Char.toLower]
  split
  · next h =>
    have hv : (c.toNat + 32).isValidChar := Or.inl (by omega)
    have ht : (Char.ofNat (c.toNat + 32)).toNat = c.toNat + 32 := by
      rw [Char.ofNat, dif_pos hv]
      rfl
    rw [Bool.eq_false_iff]
    intro hup
    rw [isUpper_iff, ht] at hup
    omega
  · next h =>
    rw [Bool.eq_false_iff]
    intro hup
    rw [isUpper_iff] at hup
    omega

/-- `Char.toLower` fixes characters that are not upper-case basic latin. -/
theorem toLower_fixed {c : Char} (h : Char.isUpper c = false) :
    Char.toLower c = c := by
  rw [Char.toLower]
  split
  · next h' =>
    exfalso
    rw [Bool.eq_false_iff] at h
    exact h ((isUpper_iff c).mpr ⟨h'.1, h'.2⟩)
  · rfl

/-! ### Rounding lemmas -/

/-- Rounding an integer changes nothing. -/
theorem pyRoundInt_intCast (n : ℤ) : pyRoundInt (n : ℚ) = n := by
  simp only [pyRoundInt, Int.floor_intCast, sub_self]
  norm_num

/-- Sums of quarter multiples are quarter multiples. -/
theorem QuarterMul.add {a b : ℚ} (ha : QuarterMul a) (hb : QuarterMul b) :
    QuarterMul (a + b) := by
  obtain ⟨ka, rfl⟩ := ha
  obtain ⟨kb, rfl⟩ := hb
  refine ⟨ka + kb, ?_⟩
  push_cast
  ring

/-- Teacher rounding always lands on a quarter multiple. -/
theorem quarterMul_roundQuarter (q : ℚ) : QuarterMul (roundQuarter q) :=
  ⟨pyRoundInt (q * 4), rfl⟩

/-- `pyRound` written with the power taken in `ℚ`. -/
theorem pyRound_def (nd : ℕ) (q : ℚ) :
    pyRound nd q = (pyRoundInt (q * 10 ^ nd) : ℚ) / 10 ^ nd := by
  unfold pyRound
  norm_num

/-- Rounding a quarter multiple to 4 decimals is the identity. -/
theorem pyRound4_of_quarterMul {q : ℚ} (h : QuarterMul q) : pyRound 4 q = q := by
  obtain ⟨k, rfl⟩ := h
  rw [pyRound_def]
  have h1 : ((k : ℚ) / 4) * 10 ^ 4 = ((k * 2500 : ℤ) : ℚ) := by
    push_cast
    ring
  rw [h1, pyRoundInt_intCast]
  push_cast
  ring

/-- The marks component returned by `compute_subpart_score` is always an
integer multiple of a quarter mark, in every branch. -/
theorem computeSubpart_marks_quarter (ext : PyExt) (cfg : Config)
    (ma sa : PyStr) (mm : ℚ) (flag : Bool) :
    QuarterMul (compute_subpart_score ext cfg ma sa mm flag).1 := by
  simp only [compute_subpart_score]
  split
  · exact ⟨0, by norm_num⟩
  · split
    · exact ⟨pyRoundInt _, rfl⟩
    · exact ⟨pyRoundInt _, rfl⟩

/-- The marks component of `scoreOne` is always a quarter multiple. -/
theorem scoreOne_marks_quarter (ext : PyExt) (cfg : Config)
    (aligned : List (PyStr × PyStr)) (sid : PyStr) (sp : ModelSubpart) :
    QuarterMul (scoreOne ext cfg aligned sid sp).1 := by
  simp only [scoreOne]
  split
  · split
    · exact ⟨0, by norm_num⟩
    · exact computeSubpart_marks_quarter ..
  · exact computeSubpart_marks_quarter ..

/-! ### Tokenizer lemmas -/

/-- `dropWhile` does nothing on a list whose head fails the predicate. -/
theorem dropWhile_cons_false {p : Char → Bool} {c : Char} {l : PyStr}
    (h : p c = false) : (c :: l).dropWhile p = c :: l := by
  simp [List.dropWhile_cons, h]

/-- `takeWhile` stops immediately on a failing head. -/
theorem takeWhile_cons_false {p : Char → Bool} {c : Char} {l : PyStr}
    (h : p c = false) : (c :: l).takeWhile p = [] := by
  simp [List.takeWhile_cons, h]

/-- `takeWhile` passes over a fully satisfying prefix. -/
theorem takeWhile_append_all {p : Char → Bool} {t l : PyStr}
    (h : ∀ c ∈ t, p c = true) : (t ++ l).takeWhile p = t ++ l.takeWhile p := by
  induction t with
  | nil => simp
  | cons c tr ih =>
    have hc : p c = true := h c (List.mem_cons_self _ _)
    simp only [List.cons_append, List.takeWhile_cons, hc, if_true]
    rw [ih (fun x hx => h x (List.mem_cons_of_mem _ hx))]

/-- `dropWhile` swallows a fully satisfying prefix. -/
theorem dropWhile_append_all {p : Char → Bool} {t l : PyStr}
    (h : ∀ c ∈ t, p c = true) : (t ++ l).dropWhile p = l.dropWhile p := by
  induction t with
  | nil => simp
  | cons c tr ih =>
    have hc : p c = true := h c (List.mem_cons_self _ _)
    simp only [List.cons_append, List.dropWhile_cons, hc, if_true]
    exact ih (fun x hx => h x (List.mem_cons_of_mem _ hx))

/-- `takeWhile` keeps a fully satisfying list. -/
theorem takeWhile_all {p : Char → Bool} {t : PyStr}
    (h : ∀ c ∈ t, p c = true) : t.takeWhile p = t := by
  have h2 := takeWhile_append_all (l := []) h
  simpa using h2

/-- `dropWhile` empties a fully satisfying list. -/
theorem dropWhile_all {p : Char → Bool} {t : PyStr}
    (h : ∀ c ∈ t, p c = true) : t.dropWhile p = [] := by
  have h2 := dropWhile_append_all (l := []) h
  simpa using h2

/-- Unfolding lemma: splitting the empty string. -/
theorem pySplit_nil : pySplit [] = [] := rfl

/-- Unfolding lemma: splitting past a leading whitespace character. -/
theorem pySplit_spc {c : Char} {l : PyStr} (h : isSpc c = true) :
    pySplit (c :: l) = pySplit l := by
  show pySplitAux [] (c :: l) = pySplitAux [] l
  rw [pySplitAux, if_pos h]

/-- Running the splitter with a non-empty pending token emits that token
(reversed) extended by the next whitespace-free stretch. -/
theorem pySplitAux_ne :
    ∀ (l acc : PyStr), acc ≠ [] →
      pySplitAux acc l =
        (acc.reverse ++ l.takeWhile (fun x => !isSpc x)) ::
          pySplit (l.dropWhile (fun x => !isSpc x)) := by
  intro l
  induction l with
  | nil =>
    intro acc hacc
    obtain ⟨a, tr, rfl⟩ := List.exists_cons_of_ne_nil hacc
    simp [pySplitAux, pySplit]
  | cons c rest ih =>
    intro acc hacc
    obtain ⟨a, tr, rfl⟩ := List.exists_cons_of_ne_nil hacc
    by_cases hc : isSpc c = true
    · rw [pySplitAux, if_pos hc,
        takeWhile_cons_false (by simp [hc]), dropWhile_cons_false (by simp [hc]),
        pySplit_spc hc]
      · simp [pySplit]
      all_goals first | rfl | simp
    · have hc' : isSpc c = false := by simpa using hc
      rw [pySplitAux, if_neg (by simp [hc']), ih (c :: a :: tr) (by simp)]
      · simp [List.takeWhile_cons, List.dropWhile_cons, hc']
      all_goals first | rfl | simp

/-- Unfolding lemma: splitting at a leading non-whitespace character. -/
theorem pySplit_word {c : Char} {l : PyStr} (h : isSpc c = false) :
    pySplit (c :: l) =
      (c :: l.takeWhile (fun x => !isSpc x)) ::
        pySplit (l.dropWhile (fun x => !isSpc x)) := by
  show pySplitAux [] (c :: l) = _
  rw [pySplitAux, if_neg (by simp [h]), pySplitAux_ne l [c] (by simp)]
  simp

/-- Length-bounded version of `pySplit_sound`, proved by induction on the
bound. -/
theorem pySplit_sound_fuel :
    ∀ (n : ℕ) (l : PyStr), l.length ≤ n →
      ∀ t ∈ pySplit l, t ≠ [] ∧ ∀ c ∈ t, c ∈ l ∧ isSpc c = false := by
  intro n
  induction n with
  | zero =>
    intro l hl t ht
    have hnil : l = [] := List.eq_nil_of_length_eq_zero (Nat.le_zero.mp hl)
    subst hnil
    rw [pySplit_nil] at ht
    simp at ht
  | succ n ih =>
    intro l hl t ht
    cases l with
    | nil =>
      rw [pySplit_nil] at ht
      simp at ht
    | cons c rest =>
      have hrest : rest.length ≤ n := by
        simp only [List.length_cons] at hl
        omega
      by_cases hc : isSpc c = true
      · rw [pySplit_spc hc] at ht
        obtain ⟨hne, hch⟩ := ih rest hrest t ht
        exact ⟨hne, fun d hd => ⟨List.mem_cons_of_mem _ (hch d hd).1, (hch d hd).2⟩⟩
      · rw [pySplit_word (by simpa using hc)] at ht
        rcases List.mem_cons.mp ht with rfl | hm
        · refine ⟨by simp, ?_⟩
          intro d hd
          rcases List.mem_cons.mp hd with rfl | hd'
          · exact ⟨List.mem_cons_self _ _, by simpa using hc⟩
          · have h1 : d ∈ rest := (List.takeWhile_sublist _).subset hd'
            have h2 := List.mem_takeWhile_imp hd'
            simp only [Bool.not_eq_true'] at h2
            exact ⟨List.mem_cons_of_mem _ h1, h2⟩
        · have hlen : (rest.dropWhile (fun x => !isSpc x)).length ≤ n :=
            le_trans (List.dropWhile_sublist _).length_le hrest
          obtain ⟨hne, hch⟩ := ih _ hlen t hm
          refine ⟨hne, fun d hd => ?_⟩
          obtain ⟨h1, h2⟩ := hch d hd
          exact ⟨List.mem_cons_of_mem _ ((List.dropWhile_sublist _).subset h1), h2⟩

/-- Tokens produced by `pySplit` are non-empty and consist of non-whitespace
characters of the input. -/
theorem pySplit_sound :
    ∀ l : PyStr, ∀ t ∈ pySplit l, t ≠ [] ∧ ∀ c ∈ t, c ∈ l ∧ isSpc c = false :=
  fun l => pySplit_sound_fuel l.length l (le_refl _)

/-- Splitting a single whitespace-free non-empty token yields that token. -/
theorem pySplit_token {t : PyStr} (hne : t ≠ [])
    (hns : ∀ c ∈ t, isSpc c = false) : pySplit t = [t] := by
  obtain ⟨c, tr, rfl⟩ := List.exists_cons_of_ne_nil hne
  rw [pySplit_word (hns c (List.mem_cons_self _ _))]
  have hforall : ∀ x ∈ tr, (!isSpc x) = true := fun x hx => by
    simp [hns x (List.mem_cons_of_mem _ hx)]
  rw [takeWhile_all hforall, dropWhile_all hforall, pySplit_nil]

/-- Splitting a token followed by a space recovers the token and recurses. -/
theorem pySplit_token_append {t l : PyStr} (hne : t ≠ [])
    (hns : ∀ c ∈ t, isSpc c = false) :
    pySplit (t ++ ' ' :: l) = t :: pySplit l := by
  obtain ⟨c, tr, rfl⟩ := List.exists_cons_of_ne_nil hne
  simp only [List.cons_append]
  rw [pySplit_word (hns c (List.mem_cons_self _ _))]
  have hforall : ∀ x ∈ tr, (!isSpc x) = true := fun x hx => by
    simp [hns x (List.mem_cons_of_mem _ hx)]
  rw [takeWhile_append_all hforall, dropWhile_append_all hforall]
  rw [takeWhile_cons_false (by decide), dropWhile_cons_false (by decide)]
  rw [pySplit_spc (by decide)]
  simp

/-- Splitting rejoined good tokens recovers exactly the tokens. -/
theorem pySplit_joinSpace :
    ∀ ts : List PyStr, (∀ t ∈ ts, t ≠ [] ∧ ∀ c ∈ t, isSpc c = false) →
      pySplit (joinSpace ts) = ts := by
  intro ts
  induction ts with
  | nil =>
    intro _
    simp [joinSpace, pySplit_nil]
  | cons t ts ih =>
    intro h
    cases ts with
    | nil =>
      simp only [joinSpace]
      exact pySplit_token (h t (List.mem_cons_self _ _)).1 (h t (List.mem_cons_self _ _)).2
    | cons t' rest =>
      simp only [joinSpace]
      rw [pySplit_token_append (h t (List.mem_cons_self _ _)).1
        (h t (List.mem_cons_self _ _)).2]
      rw [ih (fun x hx => h x (List.mem_cons_of_mem _ hx))]

/-- Unfolding lemma: collapsing the empty string. -/
theorem collapseRuns_nil : collapseRuns [] = [] := rfl

/-- Unfolding lemma: collapsing at a non-whitespace head. -/
theorem collapseRuns_cons_word {c : Char} {l : PyStr} (h : isSpc c = false) :
    collapseRuns (c :: l) = c :: collapseRuns l := by
  show collapseAux false (c :: l) = c :: collapseAux false l
  rw [collapseAux, if_neg (by simp [h])]

/-- Inside a run, the collapser behaves as the restart after dropping the
rest of the run. -/
theorem collapseAux_true :
    ∀ l : PyStr, collapseAux true l = collapseAux false (l.dropWhile isSpc) := by
  intro l
  induction l with
  | nil => rfl
  | cons d rest ih =>
    by_cases hd : isSpc d = true
    · rw [collapseAux, if_pos hd, if_pos rfl, ih, List.dropWhile_cons_of_pos hd]
    · have hd' : isSpc d = false := by simpa using hd
      rw [List.dropWhile_cons_of_neg (by simp [hd'])]
      rw [collapseAux, if_neg (by simp [hd'])]
      conv_rhs => rw [collapseAux, if_neg (by simp [hd'])]

/-- Unfolding lemma: collapsing a whitespace run. -/
theorem collapseRuns_cons_spc {c : Char} {l : PyStr} (h : isSpc c = true) :
    collapseRuns (c :: l) = ' ' :: collapseRuns (l.dropWhile isSpc) := by
  show collapseAux false (c :: l) = ' ' :: collapseAux false (l.dropWhile isSpc)
  rw [collapseAux, if_pos h, if_neg (by simp), collapseAux_true]

/-- Collapsing passes over a whitespace-free prefix. -/
theorem collapseRuns_append_words {t l : PyStr}
    (h : ∀ c ∈ t, isSpc c = false) :
    collapseRuns (t ++ l) = t ++ collapseRuns l := by
  induction t with
  | nil => simp
  | cons c tr ih =>
    simp only [List.cons_append]
    rw [collapseRuns_cons_word (h c (List.mem_cons_self _ _))]
    rw [ih (fun x hx => h x (List.mem_cons_of_mem _ hx))]

/-- Collapsing fixes whitespace-free strings. -/
theorem collapseRuns_words {t : PyStr} (h : ∀ c ∈ t, isSpc c = false) :
    collapseRuns t = t := by
  have h2 := collapseRuns_append_words (l := []) h
  simpa [collapseRuns_nil] using h2

/-- The join of a list headed by a non-empty token starts with that token's
head character. -/
theorem joinSpace_cons_shape (c : Char) (tr : PyStr) (ts : List PyStr) :
    ∃ r, joinSpace ((c :: tr) :: ts) = c :: r := by
  cases ts with
  | nil => exact ⟨tr, rfl⟩
  | cons t' rest => exact ⟨tr ++ ' ' :: joinSpace (t' :: rest), rfl⟩

/-- Collapsing fixes a join of good tokens. -/
theorem collapseRuns_joinSpace :
    ∀ ts : List PyStr, (∀ t ∈ ts, t ≠ [] ∧ ∀ c ∈ t, isSpc c = false) →
      collapseRuns (joinSpace ts) = joinSpace ts := by
  intro ts
  induction ts with
  | nil =>
    intro _
    simp [joinSpace, collapseRuns_nil]
  | cons t ts ih =>
    intro h
    cases ts with
    | nil =>
      simp only [joinSpace]
      exact collapseRuns_words (h t (List.mem_cons_self _ _)).2
    | cons t' rest =>
      simp only [joinSpace]
      rw [collapseRuns_append_words (h t (List.mem_cons_self _ _)).2]
      rw [collapseRuns_cons_spc (by decide)]
      have ht' := h t' (List.mem_cons_of_mem _ (List.mem_cons_self _ _))
      obtain ⟨c', tr', heq⟩ := List.exists_cons_of_ne_nil ht'.1
      subst heq
      obtain ⟨r, hr⟩ := joinSpace_cons_shape c' tr' rest
      rw [hr, dropWhile_cons_false (ht'.2 c' (List.mem_cons_self _ _)), ← hr]
      rw [ih (fun x hx => h x (List.mem_cons_of_mem _ hx))]

/-- A list fixed by `dropWhile` has a head failing the predicate. -/
theorem dropWhile_fix_head {p : Char → Bool} {c : Char} {r : PyStr}
    (h : (c :: r).dropWhile p = c :: r) : p c = false := by
  cases hpc : p c with
  | false => rfl
  | true =>
    exfalso
    rw [List.dropWhile_cons, if_pos (by simp [hpc])] at h
    have h1 := congrArg List.length h
    have h2 := (List.dropWhile_sublist (l := r) p).length_le
    simp at h1
    omega

/-- `pyStrip` fixes strings with non-whitespace (or absent) first and last
characters, stated through the two `dropWhile` fixes. -/
theorem pyStrip_eq_self {l : PyStr} (h1 : l.dropWhile isSpc = l)
    (h2 : l.reverse.dropWhile isSpc = l.reverse) : pyStrip l = l := by
  unfold pyStrip
  rw [h1, h2, List.reverse_reverse]

/-- A join of good tokens starts with a non-whitespace character (or is
empty). -/
theorem joinSpace_dropWhile_fix
    (ts : List PyStr) (h : ∀ t ∈ ts, t ≠ [] ∧ ∀ c ∈ t, isSpc c = false) :
    (joinSpace ts).dropWhile isSpc = joinSpace ts := by
  cases ts with
  | nil => simp [joinSpace]
  | cons t rest =>
    obtain ⟨c, tr, heq⟩ := List.exists_cons_of_ne_nil (h t (List.mem_cons_self _ _)).1
    subst heq
    obtain ⟨r, hr⟩ := joinSpace_cons_shape c tr rest
    rw [hr,
      dropWhile_cons_false ((h _ (List.mem_cons_self _ _)).2 c (List.mem_cons_self _ _))]

/-- A join of good tokens ends with a non-whitespace character (or is
empty): its reverse is fixed by `dropWhile`. -/
theorem joinSpace_rev_dropWhile_fix :
    ∀ ts : List PyStr, (∀ t ∈ ts, t ≠ [] ∧ ∀ c ∈ t, isSpc c = false) →
      (joinSpace ts).reverse.dropWhile isSpc = (joinSpace ts).reverse := by
  intro ts
  induction ts with
  | nil =>
    intro _
    simp [joinSpace]
  | cons t ts ih =>
    intro h
    cases ts with
    | nil =>
      simp only [joinSpace]
      have hne := (h t (List.mem_cons_self _ _)).1
      have hch := (h t (List.mem_cons_self _ _)).2
      have hrev : t.reverse ≠ [] := by simpa using hne
      obtain ⟨d, rr, hdr⟩ := List.exists_cons_of_ne_nil hrev
      have hd : d ∈ t := by
        rw [← List.mem_reverse, hdr]
        exact List.mem_cons_self _ _
      rw [hdr, dropWhile_cons_false (hch d hd)]
    | cons t' rest =>
      simp only [joinSpace]
      rw [List.reverse_append, List.reverse_cons]
      have ihh := ih (fun x hx => h x (List.mem_cons_of_mem _ hx))
      have hne' := (h t' (List.mem_cons_of_mem _ (List.mem_cons_self _ _))).1
      obtain ⟨c', tr', heq⟩ := List.exists_cons_of_ne_nil hne'
      subst heq
      obtain ⟨r, hr⟩ := joinSpace_cons_shape c' tr' rest
      have hrevne : (joinSpace ((c' :: tr') :: rest)).reverse ≠ [] := by
        rw [hr]
        simp
      obtain ⟨d, rr, hdr⟩ := List.exists_cons_of_ne_nil hrevne
      have hd : isSpc d = false := by
        rw [hdr] at ihh
        exact dropWhile_fix_head ihh
      rw [hdr]
      have hshape : ((d :: rr) ++ [' ']) ++ t.reverse = d :: (rr ++ ' ' :: t.reverse) := by
        simp
      rw [hshape, dropWhile_cons_false hd]

/-- `pyStrip` fixes a join of good tokens. -/
theorem pyStrip_joinSpace {ts : List PyStr}
    (h : ∀ t ∈ ts, t ≠ [] ∧ ∀ c ∈ t, isSpc c = false) :
    pyStrip (joinSpace ts) = joinSpace ts :=
  pyStrip_eq_self (joinSpace_dropWhile_fix ts h) (joinSpace_rev_dropWhile_fix ts h)

/-- The replacement text of the digit mask contains no digits. -/
theorem numToken_no_digit : ∀ c ∈ numToken, c.isDigit = false := by decide

/-- Flag-generalized form of `numMask_no_digit`. -/
theorem numMaskAux_no_digit :
    ∀ (l : PyStr) (b : Bool), ∀ c ∈ numMaskAux b l, c.isDigit = false := by
  intro l
  induction l with
  | nil =>
    intro b c hc
    simp [numMaskAux] at hc
  | cons c rest ih =>
    intro b d hd
    rw [numMaskAux] at hd
    by_cases hc : c.isDigit = true
    · rw [if_pos hc] at hd
      cases b with
      | true =>
        rw [if_pos rfl] at hd
        exact ih true d hd
      | false =>
        rw [if_neg (by simp)] at hd
        rcases List.mem_append.mp hd with hm | hm
        · exact numToken_no_digit d hm
        · exact ih true d hm
    · rw [if_neg hc] at hd
      rcases List.mem_cons.mp hd with rfl | hm
      · simpa using hc
      · exact ih false d hm

/-- The digit mask eliminates every digit. -/
theorem numMask_no_digit :
    ∀ l : PyStr, ∀ c ∈ numMask l, c.isDigit = false :=
  fun l => numMaskAux_no_digit l false

/-- Flag-generalized form of `numMask_mem`. -/
theorem numMaskAux_mem :
    ∀ (l : PyStr) (b : Bool), ∀ c ∈ numMaskAux b l, c ∈ l ∨ c ∈ numToken := by
  intro l
  induction l with
  | nil =>
    intro b c hc
    simp [numMaskAux] at hc
  | cons c rest ih =>
    intro b d hd
    rw [numMaskAux] at hd
    by_cases hc : c.isDigit = true
    · rw [if_pos hc] at hd
      cases b with
      | true =>
        rw [if_pos rfl] at hd
        rcases ih true d hd with hm | ht
        · exact Or.inl (List.mem_cons_of_mem _ hm)
        · exact Or.inr ht
      | false =>
        rw [if_neg (by simp)] at hd
        rcases List.mem_append.mp hd with hm | hm
        · exact Or.inr hm
        · rcases ih true d hm with hmem | ht
          · exact Or.inl (List.mem_cons_of_mem _ hmem)
          · exact Or.inr ht
    · rw [if_neg hc] at hd
      rcases List.mem_cons.mp hd with rfl | hm
      · exact Or.inl (List.mem_cons_self _ _)
      · rcases ih false d hm with hmem | ht
        · exact Or.inl (List.mem_cons_of_mem _ hmem)
        · exact Or.inr ht

/-- Characters surviving the digit mask come from the input or from the
replacement text. -/
theorem numMask_mem :
    ∀ l : PyStr, ∀ c ∈ numMask l, c ∈ l ∨ c ∈ numToken :=
  fun l => numMaskAux_mem l false

/-- Outside a digit run, the mask fixes digit-free strings. -/
theorem numMaskAux_id :
    ∀ l : PyStr, (∀ c ∈ l, c.isDigit = false) → numMaskAux false l = l := by
  intro l
  induction l with
  | nil =>
    intro _
    rfl
  | cons c rest ih =>
    intro hall
    rw [numMaskAux, if_neg (by simp [hall c (List.mem_cons_self _ _)])]
    rw [ih (fun x hx => hall x (List.mem_cons_of_mem _ hx))]

/-- The digit mask fixes digit-free strings. -/
theorem numMask_id :
    ∀ l : PyStr, (∀ c ∈ l, c.isDigit = false) → numMask l = l :=
  fun l => numMaskAux_id l

/-- Flag-generalized form of `mem_collapseRuns`. -/
theorem mem_collapseAux :
    ∀ (l : PyStr) (b : Bool), ∀ c ∈ collapseAux b l, c ∈ l ∨ c = ' ' := by
  intro l
  induction l with
  | nil =>
    intro b c hc
    simp [collapseAux] at hc
  | cons c rest ih =>
    intro b d hd
    rw [collapseAux] at hd
    by_cases hc : isSpc c = true
    · rw [if_pos hc] at hd
      cases b with
      | true =>
        rcases ih true d (by rwa [if_pos rfl] at hd) with hm | hs
        · exact Or.inl (List.mem_cons_of_mem _ hm)
        · exact Or.inr hs
      | false =>
        rw [if_neg (by simp)] at hd
        rcases List.mem_cons.mp hd with rfl | hm
        · exact Or.inr rfl
        · rcases ih true d hm with hmem | hs
          · exact Or.inl (List.mem_cons_of_mem _ hmem)
          · exact Or.inr hs
    · rw [if_neg hc] at hd
      rcases List.mem_cons.mp hd with rfl | hm
      · exact Or.inl (List.mem_cons_self _ _)
      · rcases ih false d hm with hmem | hs
        · exact Or.inl (List.mem_cons_of_mem _ hmem)
        · exact Or.inr hs

/-- Characters of a collapsed string come from the input or are spaces. -/
theorem mem_collapseRuns :
    ∀ l : PyStr, ∀ c ∈ collapseRuns l, c ∈ l ∨ c = ' ' :=
  fun l => mem_collapseAux l false

/-- `pyStrip` only removes characters. -/
theorem mem_pyStrip {l : PyStr} : ∀ c ∈ pyStrip l, c ∈ l := by
  intro c hc
  unfold pyStrip at hc
  rw [List.mem_reverse] at hc
  have hc2 := (List.dropWhile_sublist _).subset hc
  rw [List.mem_reverse] at hc2
  exact (List.dropWhile_sublist _).subset hc2

/-- Mapping a pointwise-fixing function is the identity. -/
theorem map_eq_self_of_fix {f : Char → Char} :
    ∀ l : PyStr, (∀ c ∈ l, f c = c) → l.map f = l := by
  intro l h
  induction l with
  | nil => rfl
  | cons c tr ih =>
    simp only [List.map_cons]
    rw [h c (List.mem_cons_self _ _), ih (fun x hx => h x (List.mem_cons_of_mem _ hx))]

/-- Flattening a character-wise transliteration that fixes every character is
the identity. -/
theorem flatten_map_fix {u : Char → PyStr} :
    ∀ l : PyStr, (∀ c ∈ l, u c = [c]) → (l.map u).flatten = l := by
  intro l h
  induction l with
  | nil => rfl
  | cons c tr ih =>
    simp only [List.map_cons, List.flatten_cons]
    rw [h c (List.mem_cons_self _ _), ih (fun x hx => h x (List.mem_cons_of_mem _ hx))]
    rfl

/-- The replacement text of the digit mask contains no upper-case letters. -/
theorem numToken_not_upper : ∀ c ∈ numToken, Char.isUpper c = false := by decide

/-- Every token produced by the cleaning pipeline is non-empty and consists
of non-whitespace, lower-case word characters (digit-free under masking). -/
theorem normTokens_good (ext : PyExt) (tc : TextCleaning) (text : PyStr) :
    ∀ t ∈ normTokens ext tc text,
      t ≠ [] ∧ ∀ c ∈ t, isSpc c = false ∧ goodTokChar tc c := by
  intro t ht
  simp only [normTokens] at ht
  set t2 := ((text.map ext.unidec).flatten).map Char.toLower with h2
  set t3 := (if tc.normalize_numbers = true then numMask t2 else t2) with h3
  set t4 := t3.map (fun c => if isWordChar c || isSpc c then c else ' ') with h4
  set t5 := pyStrip (collapseRuns t4) with h5
  have ht0 : t ∈ pySplit t5 := by
    cases hrs : tc.remove_stopwords with
    | false =>
      rw [hrs] at ht
      simpa using ht
    | true =>
      rw [hrs] at ht
      simp only [if_true] at ht
      exact (List.mem_filter.mp ht).1
  obtain ⟨hne, hch5⟩ := pySplit_sound t5 t ht0
  refine ⟨hne, fun c hc => ?_⟩
  have hnsp : isSpc c = false := (hch5 c hc).2
  have hc4 : c ∈ t4 := by
    rcases mem_collapseRuns t4 c (mem_pyStrip c ((hch5 c hc).1)) with h | hcsp
    · exact h
    · subst hcsp
      exact absurd hnsp (by decide)
  obtain ⟨x, hx3, hfx⟩ := List.mem_map.mp hc4
  have hcx : c = x := by
    by_cases hword : (isWordChar x || isSpc x) = true
    · rw [if_pos hword] at hfx
      exact hfx.symm
    · rw [if_neg hword] at hfx
      exact absurd hnsp (by rw [← hfx]; decide)
  subst hcx
  have hword : isWordChar c = true := by
    by_cases hw : (isWordChar c || isSpc c) = true
    · rcases Bool.or_eq_true_iff.mp hw with h | h
      · exact h
      · exact absurd h (by simp [hnsp])
    · rw [if_neg hw] at hfx
      exact absurd hnsp (by rw [← hfx]; decide)
  have hmain : Char.isUpper c = false ∧ (tc.normalize_numbers = true → c.isDigit = false) := by
    by_cases hmask : tc.normalize_numbers = true
    · rw [h3, if_pos hmask] at hx3
      have hdig := numMask_no_digit t2 c hx3
      rcases numMask_mem t2 c hx3 with h2m | htok
      · obtain ⟨y, _, hly⟩ := List.mem_map.mp h2m
        exact ⟨by rw [← hly]; exact isUpper_toLower y, fun _ => hdig⟩
      · exact ⟨numToken_not_upper c htok, fun _ => hdig⟩
    · rw [h3, if_neg hmask] at hx3
      obtain ⟨y, _, hly⟩ := List.mem_map.mp hx3
      exact ⟨by rw [← hly]; exact isUpper_toLower y, fun hmm => absurd hmm hmask⟩
  exact ⟨hnsp, hword, hmain.1, hmain.2⟩

/-- Characters of a join come from a token or are the separating space. -/
theorem mem_joinSpace :
    ∀ ts : List PyStr, ∀ c ∈ joinSpace ts, (∃ t ∈ ts, c ∈ t) ∨ c = ' ' := by
  intro ts
  induction ts with
  | nil =>
    intro c hc
    simp [joinSpace] at hc
  | cons t ts ih =>
    cases ts with
    | nil =>
      intro c hc
      simp only [joinSpace] at hc
      exact Or.inl ⟨t, List.mem_cons_self _ _, hc⟩
    | cons t' rest =>
      intro c hc
      simp only [joinSpace] at hc
      rcases List.mem_append.mp hc with h | h
      · exact Or.inl ⟨t, List.mem_cons_self _ _, h⟩
      · rcases List.mem_cons.mp h with rfl | h2
        · exact Or.inr rfl
        · rcases ih c h2 with ⟨u, hu1, hu2⟩ | heq
          · exact Or.inl ⟨u, List.mem_cons_of_mem _ hu1, hu2⟩
          · exact Or.inr heq

/-- Rerunning the cleaning pipeline on its own rejoined output changes
nothing (`unidec` must fix ASCII characters, as `unidecode` does). -/
theorem normTokens_idem (ext : PyExt) (tc : TextCleaning)
    (hu : ∀ c : Char, c.toNat < 128 → ext.unidec c = [c]) (x : PyStr) :
    normTokens ext tc (joinSpace (normTokens ext tc x)) = normTokens ext tc x := by
  set T := normTokens ext tc x with hT
  have hg : ∀ t ∈ T, t ≠ [] ∧ ∀ c ∈ t, isSpc c = false ∧ goodTokChar tc c :=
    normTokens_good ext tc x
  have hjchar : ∀ c ∈ joinSpace T,
      c = ' ' ∨ (isWordChar c = true ∧ Char.isUpper c = false ∧
        (tc.normalize_numbers = true → c.isDigit = false) ∧ isSpc c = false) := by
    intro c hc
    rcases mem_joinSpace T c hc with ⟨t, ht, hct⟩ | heq
    · obtain ⟨hsp, hw, hup, hd⟩ := (hg t ht).2 c hct
      exact Or.inr ⟨hw, hup, hd, hsp⟩
    · exact Or.inl heq
  have hAscii : ∀ c ∈ joinSpace T, c.toNat < 128 := by
    intro c hc
    rcases hjchar c hc with heq | ⟨hw, _, _, _⟩
    · subst heq
      decide
    · exact toNat_lt_of_word hw
  have s1 : ((joinSpace T).map ext.unidec).flatten = joinSpace T :=
    flatten_map_fix _ (fun c hc => hu c (hAscii c hc))
  have s2 : (joinSpace T).map Char.toLower = joinSpace T := by
    apply map_eq_self_of_fix
    intro c hc
    rcases hjchar c hc with heq | ⟨_, hup, _, _⟩
    · subst heq
      decide
    · exact toLower_fixed hup
  have s3 : (if tc.normalize_numbers = true then numMask (joinSpace T)
      else joinSpace T) = joinSpace T := by
    by_cases hm : tc.normalize_numbers = true
    · rw [if_pos hm]
      apply numMask_id
      intro c hc
      rcases hjchar c hc with heq | ⟨_, _, hd, _⟩
      · subst heq
        decide
      · exact hd hm
    · rw [if_neg hm]
  have s4 : (joinSpace T).map
      (fun c => if isWordChar c || isSpc c then c else ' ') = joinSpace T := by
    apply map_eq_self_of_fix
    intro c hc
    rcases hjchar c hc with heq | ⟨hw, _, _, _⟩
    · subst heq
      decide
    · simp [hw]
  have hTgood : ∀ t ∈ T, t ≠ [] ∧ ∀ c ∈ t, isSpc c = false :=
    fun t ht => ⟨(hg t ht).1, fun c hc => ((hg t ht).2 c hc).1⟩
  have s5 : collapseRuns (joinSpace T) = joinSpace T :=
    collapseRuns_joinSpace T hTgood
  have s6 : pyStrip (joinSpace T) = joinSpace T := pyStrip_joinSpace hTgood
  have s7 : pySplit (joinSpace T) = T := pySplit_joinSpace T hTgood
  have s8 : (if tc.remove_stopwords = true then
      T.filter (fun w => !(STOPWORDS.contains w)) else T) = T := by
    by_cases hrs : tc.remove_stopwords = true
    · rw [if_pos hrs]
      apply List.filter_eq_self.mpr
      intro a ha
      rw [hT] at ha
      simp only [normTokens, hrs, if_true] at ha
      exact (List.mem_filter.mp ha).2
    · rw [if_neg hrs]
  simp only [normTokens]
  rw [s1, s2, s3, s4, s5, s6, s7, s8]

/-- With stemming and lemmatization inactive (disabled, or their NLTK tools
unavailable), `normalize_text` is idempotent for every text and every fixed
choice of the remaining options. -/
theorem normalize_text_idem_nostem (ext : PyExt) (tc : TextCleaning)
    (hst : (tc.apply_stemming && ext.stemAvail) = false)
    (hlm : (tc.apply_lemmatization && ext.lemAvail) = false)
    (hu : ∀ c : Char, c.toNat < 128 → ext.unidec c = [c]) (x : PyStr) :
    normalize_text ext tc (normalize_text ext tc x) = normalize_text ext tc x := by
  simp only [normalize_text, hst, Bool.false_eq_true, if_false, hlm]
  exact congrArg joinSpace (normTokens_idem ext tc hu x)

/-! ### Subjective-scorer lemmas (claim C1) -/

/-- The guarded length ratio of the source equals the plain quotient of
token counts (with the quotient-by-zero convention making the degenerate
guards coincide). -/
theorem length_ratio_val_eq (ext : PyExt) (cfg : Config) (m s : PyStr) :
    length_ratio_val ext cfg m s =
      ((pySplit (normalize_text ext cfg.text_cleaning s)).length : ℚ) /
        ((pySplit (normalize_text ext cfg.text_cleaning m)).length : ℚ) := by
  simp only [length_ratio_val]
  by_cases hm : normalize_text ext cfg.text_cleaning m = []
  · rw [if_pos (Or.inl hm), hm, pySplit_nil]
    simp
  · by_cases hs : normalize_text ext cfg.text_cleaning s = []
    · rw [if_pos (Or.inr hs), hs, pySplit_nil]
      simp
    · rw [if_neg (by tauto)]
      by_cases hl : (pySplit (normalize_text ext cfg.text_cleaning m)).length = 0
      · rw [if_pos hl, hl]
        simp
      · rw [if_neg hl]

/-- The length ratio is never negative. -/
theorem length_ratio_val_nonneg (ext : PyExt) (cfg : Config) (m s : PyStr) :
    0 ≤ length_ratio_val ext cfg m s := by
  rw [length_ratio_val_eq]
  exact div_nonneg (Nat.cast_nonneg _) (Nat.cast_nonneg _)

/-- Teacher rounding of zero is zero. -/
theorem roundQuarter_zero : roundQuarter 0 = 0 := by
  have h0 : ((0 : ℚ) * 4) = ((0 : ℤ) : ℚ) := by norm_num
  rw [roundQuarter, h0, pyRoundInt_intCast]
  norm_num

/-- C1: for every non-blank student answer scored on the subjective branch,
`compute_subpart_score` returns marks computed exactly as the specification
states: `combined = w_semantic*semantic + w_keyword*keyword`, multiplied by
the penalty factor `clamp((ratio/min_length_ratio)^strength, 0.3, 1.0)`
whenever the token-count ratio falls below `min_length_ratio`, clamped to
`[0,1]`, zero below `min_partial_score`, else the mid-range bump
(`combined < 0.5 → min(0.5, combined+0.1)`) and `combined * max_marks`
rounded to the nearest 0.25 (`claimC1marks`).  The hypothesis `h0` records a
property of the real scorers: when the length ratio degenerates to zero (one
of the normalizations is token-free), both component scores, and hence the
weighted blend, are zero. -/
theorem claim_C1 (ext : PyExt) (cfg : Config)
    (model student : PyStr) (mm : ℚ)
    (hblank : pyStrip student ≠ [])
    (h0 : length_ratio_val ext cfg model student = 0 →
      cfg.weights.semantic * semantic_similarity ext cfg model student +
        cfg.weights.keyword * keyword_match_score ext cfg model student = 0) :
    (compute_subpart_score ext cfg model student mm false).1 =
      claimC1marks ext cfg model student mm := by
  simp only [compute_subpart_score, claimC1marks, Bool.false_eq_true, if_false]
  rw [if_neg (by simpa using hblank)]
  rw [← length_ratio_val_eq]
  set sem := semantic_similarity ext cfg model student with hsem
  set kw := keyword_match_score ext cfg model student with hkw
  set combined := cfg.weights.semantic * sem + cfg.weights.keyword * kw with hcombined
  set lr := length_ratio_val ext cfg model student with hlrdef
  set mlr := cfg.thresholds.min_length_ratio with hmlr
  set fac := max (3/10) (min 1 (ext.powF (lr / mlr) cfg.thresholds.length_penalty_strength)) with hfac
  have hC : (if 0 < mlr ∧ 0 < lr ∧ lr < mlr then combined * fac else combined) =
      (if lr < mlr then combined * fac else combined) := by
    by_cases hguard : 0 < mlr ∧ 0 < lr ∧ lr < mlr
    · rw [if_pos hguard, if_pos hguard.2.2]
    · by_cases hlt : lr < mlr
      · have hge : (0 : ℚ) ≤ lr := length_ratio_val_nonneg ext cfg model student
        have hlr0 : lr = 0 := by
          by_contra hne
          have hpos : 0 < lr := lt_of_le_of_ne hge (Ne.symm hne)
          exact hguard ⟨lt_trans hpos hlt, hpos, hlt⟩
        have hcomb0 := h0 hlr0
        rw [if_neg hguard, if_pos hlt, hcomb0, zero_mul]
      · rw [if_neg hguard, if_neg hlt]
  rw [hC]
  set c2 := max 0 (min 1 (if lr < mlr then combined * fac else combined)) with hc2
  by_cases hfloor : c2 < cfg.thresholds.min_partial_score
  · rw [if_pos hfloor, if_pos hfloor, roundQuarter_zero]
  · rw [if_neg hfloor, if_neg hfloor]

/-! ### Choice-picker lemmas (claim C5) -/

/-- No collected candidate letters: unanswered. -/
theorem pick_none_of_no_candidates {s : PyStr} (h : mcqCandidates s = []) :
    pick_student_choice s = none := by
  simp only [pick_student_choice]
  rw [if_pos h]

/-- More than one distinct collected letter: ambiguous, do not guess. -/
theorem pick_none_of_ambiguous {s : PyStr}
    (h : 1 < (mcqCandidates s).dedup.length) :
    pick_student_choice s = none := by
  simp only [pick_student_choice]
  by_cases hc : mcqCandidates s = []
  · rw [if_pos hc]
  · rw [if_neg hc, if_pos h]

/-- A unique distinct collected letter is returned. -/
theorem pick_some_of_unique {s : PyStr} {X : Char}
    (h : (mcqCandidates s).dedup = [X]) :
    pick_student_choice s = some X := by
  have hne : mcqCandidates s ≠ [] := by
    intro hnil
    rw [hnil] at h
    simp at h
  obtain ⟨c, r, hcr⟩ := List.exists_cons_of_ne_nil hne
  have hlen : ¬ (1 < (mcqCandidates s).dedup.length) := by
    rw [h]
    simp
  have hcX : c = X := by
    have hmem : c ∈ (mcqCandidates s).dedup := by
      rw [List.mem_dedup, hcr]
      exact List.mem_cons_self _ _
    rw [h] at hmem
    simpa using hmem
  simp only [pick_student_choice]
  rw [if_neg hne, if_neg hlen, hcr]
  simp [hcX]

/-! ### Rounding bounds -/

/-- Rounding a non-negative rational stays non-negative. -/
theorem pyRoundInt_nonneg {q : ℚ} (h : 0 ≤ q) : 0 ≤ pyRoundInt q := by
  have hf := Int.floor_nonneg.mpr h
  simp only [pyRoundInt]
  split
  · exact hf
  · split
    · omega
    · split <;> omega

/-- Rounding never overshoots an integer upper bound. -/
theorem pyRoundInt_le {q : ℚ} {N : ℤ} (h : q ≤ (N : ℚ)) : pyRoundInt q ≤ N := by
  have hfl : ⌊q⌋ ≤ N := by
    have h2 := Int.floor_le_floor h
    rwa [Int.floor_intCast] at h2
  simp only [pyRoundInt]
  split
  · exact hfl
  · next hcond =>
    have hhalf : (1 : ℚ) / 2 ≤ q - ⌊q⌋ := le_of_not_lt hcond
    have hfloor_le : (⌊q⌋ : ℚ) ≤ q := Int.floor_le q
    have hlt : ⌊q⌋ < N := by
      by_contra hge
      have hEq : ⌊q⌋ = N := le_antisymm hfl (le_of_not_lt hge)
      have h3 : (N : ℚ) + 1 / 2 ≤ q := by
        have := hhalf
        rw [hEq] at this
        linarith
      linarith
    split
    · omega
    · split <;> omega

/-- `round(x, 4)` maps `[0,1]` into `[0,1]`. -/
theorem pyRound_bounds01 {q : ℚ} (h0 : 0 ≤ q) (h1 : q ≤ 1) :
    0 ≤ pyRound 4 q ∧ pyRound 4 q ≤ 1 := by
  have ha : 0 ≤ q * 10 ^ 4 := by positivity
  have hb : q * 10 ^ 4 ≤ ((10 ^ 4 : ℤ) : ℚ) := by
    push_cast
    nlinarith
  constructor
  · rw [pyRound_def]
    apply div_nonneg
    · exact_mod_cast pyRoundInt_nonneg ha
    · positivity
  · rw [pyRound_def]
    rw [div_le_one (by positivity)]
    have h2 := pyRoundInt_le hb
    calc (pyRoundInt (q * 10 ^ 4) : ℚ) ≤ ((10 ^ 4 : ℤ) : ℚ) := by exact_mod_cast h2
      _ = 10 ^ 4 := by norm_num

/-- Rounding zero to 4 decimals is zero. -/
theorem pyRound4_zero : pyRound 4 0 = 0 :=
  pyRound4_of_quarterMul ⟨0, by norm_num⟩

/-- Python `max` with a default is bounded by any common bound. -/
theorem pyMaxD_le {b d : ℚ} :
    ∀ l : List ℚ, (∀ q ∈ l, q ≤ b) → d ≤ b → pyMaxD d l ≤ b := by
  intro l
  cases l with
  | nil =>
    intro _ hd
    exact hd
  | cons x xs =>
    intro h _
    simp only [pyMaxD]
    have hgen : ∀ ys : List ℚ, ∀ a : ℚ, a ≤ b → (∀ q ∈ ys, q ≤ b) →
        ys.foldl max a ≤ b := by
      intro ys
      induction ys with
      | nil =>
        intro a ha _
        exact ha
      | cons y ys ih =>
        intro a ha hy
        simp only [List.foldl_cons]
        exact ih (max a y) (max_le ha (hy y (List.mem_cons_self _ _)))
          (fun q hq => hy q (List.mem_cons_of_mem _ hq))
    exact hgen xs x (h x (List.mem_cons_self _ _))
      (fun q hq => h q (List.mem_cons_of_mem _ hq))

/-! ### Keyword-score lemmas (claim C7) -/

/-- The keyword score always lies in `[0,1]`, for every input and
configuration. -/
theorem keyword_match_score_bounds (ext : PyExt) (cfg : Config) (m s : PyStr) :
    0 ≤ keyword_match_score ext cfg m s ∧ keyword_match_score ext cfg m s ≤ 1 := by
  simp only [keyword_match_score]
  by_cases hms : m = [] ∨ s = []
  · rw [if_pos hms]
    norm_num
  · rw [if_neg hms]
    by_cases hse : normalize_text ext cfg.text_cleaning s = []
    · rw [if_pos hse]
      norm_num
    · rw [if_neg hse]
      by_cases hk : keywordCandidates ext m cfg.keywords.top_k cfg.keywords.minlen = []
      · rw [if_pos hk]
        norm_num
      · rw [if_neg hk]
        apply pyRound_bounds01
        · exact le_max_left _ _
        · exact max_le (by norm_num) (min_le_left _ _)


/-- The keyword score is the claim's hits-over-keywords formula, rounded to 4
decimal places.  The hypotheses record two facts about the real engine: the
fuzzy threshold is positive (0.88 in `config.py`) and `SequenceMatcher`
yields a non-positive ratio for an empty keyword against a non-empty token,
so that keywords whose normalization is empty (skipped by the source) also
produce no hit under the claim's reading. -/
theorem keyword_match_score_eq_claim (ext : PyExt) (cfg : Config) (m s : PyStr)
    (hth : 0 < cfg.keywords.fuzzy_threshold)
    (hfz : ∀ t : PyStr, t ≠ [] → ext.fuzzSim [] t ≤ 0) :
    keyword_match_score ext cfg m s = pyRound 4 (claimC7score ext cfg m s) := by
  simp only [keyword_match_score, claimC7score]
  set keys := keywordCandidates ext m cfg.keywords.top_k cfg.keywords.minlen with hkeys
  set sNorm := normalize_text ext cfg.text_cleaning s with hsn
  set G := (fun key =>
    if normalize_text ext cfg.text_cleaning key ∈ pySplit sNorm then true
    else if cfg.keywords.use_fuzzy then
      decide (cfg.keywords.fuzzy_threshold ≤
        pyMaxD 0 ((pySplit sNorm).map
          (ext.fuzzSim (normalize_text ext cfg.text_cleaning key))))
    else false) with hG
  by_cases hms : m = [] ∨ s = []
  · rw [if_pos hms, if_pos hms, pyRound4_zero]
  · rw [if_neg hms, if_neg hms]
    by_cases hse : sNorm = []
    · rw [if_pos hse]
      by_cases hk : keys = []
      · rw [if_pos hk, pyRound4_zero]
      · rw [if_neg hk]
        have hfe : keys.filter G = [] := by
          apply List.filter_eq_nil_iff.mpr
          intro key _
          rw [hG, hse, pySplit_nil]
          simp [pyMaxD, not_le.mpr hth]
        rw [hfe]
        simp [pyRound4_zero]
    · rw [if_neg hse]
      by_cases hk : keys = []
      · rw [if_pos hk, if_pos hk, pyRound4_zero]
      · rw [if_neg hk, if_neg hk]
        have hsound := pySplit_sound sNorm
        have hcongr : keys.filter (keywordHit ext cfg (pySplit sNorm)) = keys.filter G := by
          apply List.filter_congr
          intro key _
          rw [hG]
          simp only [keywordHit]
          by_cases hkn : normalize_text ext cfg.text_cleaning key = []
          · rw [if_pos hkn, hkn]
            have hnm : ([] : PyStr) ∉ pySplit sNorm := by
              intro hmem
              exact (hsound [] hmem).1 rfl
            rw [if_neg hnm]
            have hmax : pyMaxD 0 ((pySplit sNorm).map (ext.fuzzSim [])) ≤ 0 := by
              apply pyMaxD_le
              · intro q hq
                obtain ⟨t, ht, rfl⟩ := List.mem_map.mp hq
                exact hfz t (hsound t ht).1
              · exact le_refl 0
            split
            · simp [not_le.mpr (lt_of_le_of_lt hmax hth)]
            · rfl
          · rw [if_neg hkn]
        rw [hcongr]
        have hlen : (keys.filter G).length ≤ keys.length := List.length_filter_le _ _
        have hpos : 0 < (keys.length : ℚ) := by
          have h2 := List.length_pos.mpr hk
          exact_mod_cast h2
        have hx1 : ((keys.filter G).length : ℚ) / (keys.length : ℚ) ≤ 1 := by
          rw [div_le_one hpos]
          exact_mod_cast hlen
        have hx0 : (0 : ℚ) ≤ ((keys.filter G).length : ℚ) / (keys.length : ℚ) :=
          div_nonneg (Nat.cast_nonneg _) (Nat.cast_nonneg _)
        rw [min_eq_right hx1, max_eq_right hx0]

/-! ### Association-list (Python dict) lemmas -/

/-- Lookup after inserting a different key is unchanged. -/
theorem dictGet_dictInsert_ne {α : Type} :
    ∀ (d : List (PyStr × α)) (k k' : PyStr) (v : α), k' ≠ k →
      dictGet (dictInsert d k v) k' = dictGet d k' := by
  intro d
  induction d with
  | nil =>
    intro k k' v h
    simp only [dictInsert, dictGet]
    rw [if_neg (fun he => h he.symm)]
  | cons kv rest ih =>
    intro k k' v h
    obtain ⟨k0, v0⟩ := kv
    simp only [dictInsert]
    by_cases h0 : k0 = k
    · rw [if_pos h0]
      simp only [dictGet]
      rw [if_neg (h0 ▸ fun he => h he.symm), if_neg (h0 ▸ fun he => h he.symm)]
    · rw [if_neg h0]
      simp only [dictGet]
      by_cases h1 : k0 = k'
      · rw [if_pos h1, if_pos h1]
      · rw [if_neg h1, if_neg h1]
        exact ih k k' v h
  
/-- Lookup after inserting the same key finds the new value. -/
theorem dictGet_dictInsert_self {α : Type} :
    ∀ (d : List (PyStr × α)) (k : PyStr) (v : α),
      dictGet (dictInsert d k v) k = some v := by
  intro d
  induction d with
  | nil =>
    intro k v
    simp [dictInsert, dictGet]
  | cons kv rest ih =>
    intro k v
    obtain ⟨k0, v0⟩ := kv
    simp only [dictInsert]
    by_cases h0 : k0 = k
    · rw [if_pos h0]
      simp [dictGet, h0]
    · rw [if_neg h0]
      simp only [dictGet]
      rw [if_neg h0]
      exact ih k v

/-- A successful lookup returns a stored pair. -/
theorem dictGet_mem {α : Type} :
    ∀ (d : List (PyStr × α)) (k : PyStr) (v : α),
      dictGet d k = some v → (k, v) ∈ d := by
  intro d
  induction d with
  | nil =>
    intro k v h
    simp [dictGet] at h
  | cons kv rest ih =>
    intro k v h
    obtain ⟨k0, v0⟩ := kv
    simp only [dictGet] at h
    by_cases h0 : k0 = k
    · rw [if_pos h0] at h
      injection h with h
      subst h0
      subst h
      exact List.mem_cons_self _ _
    · rw [if_neg h0] at h
      exact List.mem_cons_of_mem _ (ih k v h)

/-- Inserting preserves a pairwise property. -/
theorem dictInsert_prop {α : Type} (P : PyStr → α → Prop) :
    ∀ (d : List (PyStr × α)) (k : PyStr) (v : α),
      (∀ kv ∈ d, P kv.1 kv.2) → P k v →
      ∀ kv ∈ dictInsert d k v, P kv.1 kv.2 := by
  intro d
  induction d with
  | nil =>
    intro k v _ hkv kv hm
    simp only [dictInsert] at hm
    rcases List.mem_cons.mp hm with rfl | hm2
    · exact hkv
    · simp at hm2
  | cons kv0 rest ih =>
    intro k v hall hkv kv hm
    obtain ⟨k0, v0⟩ := kv0
    simp only [dictInsert] at hm
    by_cases h0 : k0 = k
    · rw [if_pos h0] at hm
      rcases List.mem_cons.mp hm with rfl | hm2
      · subst h0
        exact hkv
      · exact hall kv (List.mem_cons_of_mem _ hm2)
    · rw [if_neg h0] at hm
      rcases List.mem_cons.mp hm with rfl | hm2
      · exact hall (k0, v0) (List.mem_cons_self _ _)
      · exact ih k v (fun x hx => hall x (List.mem_cons_of_mem _ hx)) hkv kv hm2

/-- Inserting a fresh key appends the binding. -/
theorem dictInsert_fresh {α : Type} :
    ∀ (d : List (PyStr × α)) (k : PyStr) (v : α),
      (∀ kv ∈ d, kv.1 ≠ k) → dictInsert d k v = d ++ [(k, v)] := by
  intro d
  induction d with
  | nil =>
    intro k v _
    simp [dictInsert]
  | cons kv0 rest ih =>
    intro k v h
    obtain ⟨k0, v0⟩ := kv0
    simp only [dictInsert]
    rw [if_neg (h (k0, v0) (List.mem_cons_self _ _))]
    rw [ih k v (fun x hx => h x (List.mem_cons_of_mem _ hx))]
    simp

/-- Lookup of the all-zero initial subpart dict built by the orchestrator. -/
theorem initDict_get (key : PyStr) :
    ∀ (sps : List ModelSubpart) (d0 : List (PyStr × SubpartResult)),
      dictGet (sps.foldl (fun d sp => dictInsert d sp.id zeroSubResult) d0) key =
        if ∃ sp ∈ sps, sp.id = key then some zeroSubResult else dictGet d0 key := by
  intro sps
  induction sps with
  | nil =>
    intro d0
    simp
  | cons sp sps ih =>
    intro d0
    simp only [List.foldl_cons]
    rw [ih]
    by_cases hk : ∃ sp' ∈ sps, sp'.id = key
    · rw [if_pos hk, if_pos ?h]
      case h =>
        obtain ⟨sp', h1, h2⟩ := hk
        exact ⟨sp', List.mem_cons_of_mem _ h1, h2⟩
    · rw [if_neg hk]
      by_cases hsp : sp.id = key
      · subst hsp
        rw [dictGet_dictInsert_self]
        rw [if_pos ⟨sp, List.mem_cons_self _ _, rfl⟩]
      · rw [dictGet_dictInsert_ne _ _ _ _ (fun he => hsp he.symm)]
        rw [if_neg ?h]
        case h =>
          rintro ⟨sp', hmem, hid⟩
          rcases List.mem_cons.mp hmem with rfl | hmem2
          · exact hsp hid
          · exact hk ⟨sp', hmem2, hid⟩

/-- Every binding of the `sp_by_norm` dict maps a folded id to a subpart
carrying exactly that folded id. -/
theorem spByNorm_prop (sps : List ModelSubpart) :
    ∀ kv ∈ sps.foldl (fun d sp => dictInsert d (normIdE sp.id) sp) [],
      normIdE kv.2.id = kv.1 := by
  have hgen : ∀ (l : List ModelSubpart) (d0 : List (PyStr × ModelSubpart)),
      (∀ kv ∈ d0, normIdE kv.2.id = kv.1) →
      ∀ kv ∈ l.foldl (fun d sp => dictInsert d (normIdE sp.id) sp) d0,
        normIdE kv.2.id = kv.1 := by
    intro l
    induction l with
    | nil =>
      intro d0 h kv hm
      exact h kv hm
    | cons sp l ih =>
      intro d0 h kv hm
      simp only [List.foldl_cons] at hm
      exact ih _ (dictInsert_prop (fun k v => normIdE v.id = k) d0 _ sp h rfl) kv hm
  intro kv hm
  exact hgen sps [] (by simp) kv hm

/-! ### Alignment lemmas (claim C9) -/

/-- When no section matches the question's digit signature, alignment is the
empty mapping. -/
theorem align_empty_of_no_section (q : ModelQuestion) (root : List (PyStr × JVal))
    (h : findQuestionSection root (digitsOf (pyStrip q.question_number)) = none) :
    align_student_to_model q root = [] := by
  simp only [align_student_to_model, h]

/-- Every key of the alignment result is a folded subpart id declared by the
model question. -/
theorem align_keys_declared (q : ModelQuestion) (root : List (PyStr × JVal)) :
    ∀ kv ∈ align_student_to_model q root,
      kv.1 ∈ q.subparts.map (fun sp => normIdA sp.id) := by
  intro kv hkv
  simp only [align_student_to_model] at hkv
  cases hfs : findQuestionSection root (digitsOf (pyStrip q.question_number)) with
  | none =>
    rw [hfs] at hkv
    simp at hkv
  | some sect =>
    rw [hfs] at hkv
    simp only at hkv
    have h2 := (List.mem_filter.mp hkv).2
    simpa using h2

/-! ### Selection lemmas (claim C2) -/

/-- When `attempt_required` is `"all"` or the policy is `"none"`, every
declared (folded) subpart id is selected. -/
theorem select_all_ids (q : ModelQuestion) (aligned : List (PyStr × PyStr))
    (h : getAttemptRequired q = ARVal.str ("all".toList) ∨
      getSelectionPolicy q = "none".toList) :
    selectSubpartsToScore q aligned =
      (q.subparts.map (fun sp => sp.id)).map normIdE := by
  simp only [selectSubpartsToScore]
  rw [if_pos h]

/-- Under `first_n` with a non-negative integer `attempt_required`, exactly
the first `n` folded ids with non-blank aligned text are selected. -/
theorem select_first_n (q : ModelQuestion) (aligned : List (PyStr × PyStr))
    (n : ℤ) (hpol : getSelectionPolicy q = "first_n".toList)
    (har : getAttemptRequired q = ARVal.int n) (hn : 0 ≤ n) :
    selectSubpartsToScore q aligned =
      (((q.subparts.map (fun sp => sp.id)).map normIdE).filter (fun i =>
        match dictGet aligned i with
        | some v => decide (pyStrip v ≠ [])
        | none => false)).take n.toNat := by
  simp only [selectSubpartsToScore]
  have hne : ¬ (getAttemptRequired q = ARVal.str ("all".toList) ∨
      getSelectionPolicy q = "none".toList) := by
    rintro (h | h)
    · rw [har] at h
      exact absurd h (by simp)
    · rw [hpol] at h
      exact absurd h (by decide)
  rw [if_neg hne, har]
  simp only
  rw [if_pos hpol]
  simp only [pySliceTo]
  rw [if_pos hn]

/-- Selected ids are drawn from the declared folded ids. -/
theorem select_subset (q : ModelQuestion) (aligned : List (PyStr × PyStr)) :
    ∀ sid ∈ selectSubpartsToScore q aligned,
      sid ∈ (q.subparts.map (fun sp => sp.id)).map normIdE := by
  intro sid h
  simp only [selectSubpartsToScore] at h
  split at h
  · exact h
  · split at h
    · split at h
      · simp only [pySliceTo] at h
        split at h
        · exact (List.mem_filter.mp (List.take_subset _ _ h)).1
        · exact (List.mem_filter.mp (List.take_subset _ _ h)).1
      · exact h
    · exact h

/-- Selected ids are distinct whenever the declared folded ids are. -/
theorem select_nodup (q : ModelQuestion) (aligned : List (PyStr × PyStr))
    (h : ((q.subparts.map (fun sp => sp.id)).map normIdE).Nodup) :
    (selectSubpartsToScore q aligned).Nodup := by
  simp only [selectSubpartsToScore]
  split
  · exact h
  · split
    · split
      · simp only [pySliceTo]
        split
        · exact (h.filter _).take
        · exact (h.filter _).take
      · exact h
    · exact h

/-! ### Orchestrator lemmas (claims C2, C3, C4, C10) -/

/-- Generic fold invariant. -/
theorem foldl_preserve {σ α : Type} (P : σ → Prop) (f : σ → α → σ) :
    ∀ (l : List α) (st : σ), P st →
      (∀ st' a, a ∈ l → P st' → P (f st' a)) → P (l.foldl f st) := by
  intro l
  induction l with
  | nil =>
    intro st h _
    exact h
  | cons a l ih =>
    intro st h hstep
    simp only [List.foldl_cons]
    exact ih (f st a) (hstep st a (List.mem_cons_self _ _) h)
      (fun st' b hb hP => hstep st' b (List.mem_cons_of_mem _ hb) hP)

/-- A subpart whose folded id was not selected keeps the all-zero entry in
the question's report. -/
theorem evalQuestion_unselected_zero (ext : PyExt) (cfg : Config)
    (q : ModelQuestion) (student : List (PyStr × JVal)) (sp : ModelSubpart)
    (hsp : sp ∈ q.subparts)
    (hns : normIdE sp.id ∉ selectSubpartsToScore q (align_student_to_model q student)) :
    dictGet (evalQuestion ext cfg q student).subparts sp.id = some zeroSubResult := by
  simp only [evalQuestion, evalQuestionRaw]
  apply foldl_preserve
    (P := fun st : List (PyStr × SubpartResult) × ℚ =>
      dictGet st.1 sp.id = some zeroSubResult)
  · rw [initDict_get]
    rw [if_pos ⟨sp, hsp, rfl⟩]
  · intro st' sid hsid hP
    cases hg : dictGet (q.subparts.foldl
        (fun d sp => dictInsert d (normIdE sp.id) sp) []) sid with
    | none =>
      simp only [evalStep, hg]
      exact hP
    | some sp' =>
      simp only [evalStep, hg]
      have hid : normIdE sp'.id = sid :=
        spByNorm_prop q.subparts (sid, sp') (dictGet_mem _ sid sp' hg)
      by_cases heq : sp'.id = sp.id
      · exfalso
        rw [heq] at hid
        rw [hid] at hns
        exact hns hsid
      · rw [dictGet_dictInsert_ne _ _ _ _ (fun he => heq he.symm)]
        exact hP

/-- When nothing was selected and the alignment is empty, the question's
notes consist exactly of the no-answers note. -/
theorem evalQuestion_notes_no_answers (ext : PyExt) (cfg : Config)
    (q : ModelQuestion) (student : List (PyStr × JVal))
    (hsel : selectSubpartsToScore q (align_student_to_model q student) = [])
    (hal : align_student_to_model q student = []) :
    (evalQuestion ext cfg q student).notes = [noteNoAnswers] := by
  simp only [evalQuestion, evalQuestionRaw]
  rw [if_pos hsel, if_neg (by simp [hal])]

/-- On an MCQ-shaped subpart with no (or an ambiguous) detected choice, the
scoring step yields zero marks and zero component scores, without error. -/
theorem scoreOne_mcq_none (ext : PyExt) (cfg : Config)
    (aligned : List (PyStr × PyStr)) (sid : PyStr) (sp : ModelSubpart)
    (hmcq : is_mcq sp.model_answer = true)
    (hpick : pick_student_choice ((dictGet aligned sid).getD []) = none) :
    scoreOne ext cfg aligned sid sp = (0, 0, 0) := by
  simp only [scoreOne]
  rw [if_pos hmcq, hpick]

/-- On an MCQ-shaped subpart with a detected choice `X`, the scoring step
re-renders the student answer as the canonical `(X)` token and scores it on
the MCQ branch. -/
theorem scoreOne_mcq_some (ext : PyExt) (cfg : Config)
    (aligned : List (PyStr × PyStr)) (sid : PyStr) (sp : ModelSubpart) (X : Char)
    (hmcq : is_mcq sp.model_answer = true)
    (hpick : pick_student_choice ((dictGet aligned sid).getD []) = some X) :
    scoreOne ext cfg aligned sid sp =
      compute_subpart_score ext cfg sp.model_answer ['(', X, ')'] sp.marks true := by
  simp only [scoreOne]
  rw [if_pos hmcq, hpick]

/-- The canonical choice token is blank-free. -/
theorem pyStrip_choice_token (X : Char) :
    pyStrip ['(', X, ')'] = ['(', X, ')'] := by
  unfold pyStrip
  rw [dropWhile_cons_false (by decide)]
  have hr : (['(', X, ')'] : PyStr).reverse = [')', X, '('] := rfl
  rw [hr, dropWhile_cons_false (by decide)]
  rfl

/-- The MCQ branch awards the teacher-rounded full marks exactly when the
semantic similarity of the canonical token against the model answer reaches
the MCQ threshold, and zero otherwise. -/
theorem compute_mcq_marks (ext : PyExt) (cfg : Config) (ma : PyStr)
    (X : Char) (mm : ℚ) :
    (compute_subpart_score ext cfg ma ['(', X, ')'] mm true).1 =
      (if cfg.thresholds.mcq_min_correct_score ≤
          semantic_similarity ext cfg ma ['(', X, ')']
        then roundQuarter mm else 0) := by
  simp only [compute_subpart_score]
  rw [if_neg (by simp [pyStrip_choice_token])]
  simp only [if_true]
  by_cases hs : cfg.thresholds.mcq_min_correct_score ≤
      semantic_similarity ext cfg ma ['(', X, ')']
  · rw [if_pos hs, if_pos hs]
  · rw [if_neg hs, if_neg hs, roundQuarter_zero]

/-! ### Sum-of-marks lemmas (claim C10) -/

/-- Updating a present key shifts the marks total by the difference. -/
theorem sum_marks_dictInsert :
    ∀ (d : List (PyStr × SubpartResult)) (k : PyStr) (r v : SubpartResult),
      dictGet d k = some r →
      ((dictInsert d k v).map (fun kv => kv.2.marks)).sum =
        (d.map (fun kv => kv.2.marks)).sum - r.marks + v.marks := by
  intro d
  induction d with
  | nil =>
    intro k r v h
    simp [dictGet] at h
  | cons kv0 rest ih =>
    intro k r v h
    obtain ⟨k0, v0⟩ := kv0
    simp only [dictGet] at h
    by_cases h0 : k0 = k
    · rw [if_pos h0] at h
      injection h with h
      subst h
      simp only [dictInsert, if_pos h0, List.map_cons, List.sum_cons]
      ring
    · rw [if_neg h0] at h
      simp only [dictInsert, if_neg h0, List.map_cons, List.sum_cons]
      rw [ih k r v h]
      ring

/-- Every entry of the initial subpart dict is the all-zero record. -/
theorem initDict_all_zero (sps : List ModelSubpart) :
    ∀ kv ∈ sps.foldl (fun d sp => dictInsert d sp.id zeroSubResult) [],
      kv.2 = zeroSubResult := by
  have hgen : ∀ (l : List ModelSubpart) (d0 : List (PyStr × SubpartResult)),
      (∀ kv ∈ d0, kv.2 = zeroSubResult) →
      ∀ kv ∈ l.foldl (fun d sp => dictInsert d sp.id zeroSubResult) d0,
        kv.2 = zeroSubResult := by
    intro l
    induction l with
    | nil =>
      intro d0 h kv hm
      exact h kv hm
    | cons sp l ih =>
      intro d0 h kv hm
      simp only [List.foldl_cons] at hm
      exact ih _ (dictInsert_prop (fun _ v => v = zeroSubResult) d0 _ _ h rfl) kv hm
  intro kv hm
  exact hgen sps [] (by simp) kv hm

/-- The initial subpart dict sums to zero marks. -/
theorem initDict_sum_zero (sps : List ModelSubpart) :
    ((sps.foldl (fun d sp => dictInsert d sp.id zeroSubResult) []).map
      (fun kv => kv.2.marks)).sum = 0 := by
  apply List.sum_eq_zero
  intro x hx
  obtain ⟨kv, hkv, rfl⟩ := List.mem_map.mp hx
  rw [initDict_all_zero sps kv hkv]
  rfl

/-- The running fold of the scoring loop keeps three invariants: the report
dict's marks sum equals the raw accumulator, the accumulator is a quarter
multiple, and entries for ids still to be processed stay all-zero (distinct
ids assumed). -/
theorem evalStep_fold_invariant (ext : PyExt) (cfg : Config)
    (aligned : List (PyStr × PyStr)) (spByNorm : List (PyStr × ModelSubpart))
    (hprop : ∀ kv ∈ spByNorm, normIdE kv.2.id = kv.1) :
    ∀ (sids : List PyStr), sids.Nodup →
      ∀ st : List (PyStr × SubpartResult) × ℚ,
      (st.1.map (fun kv => kv.2.marks)).sum = st.2 →
      QuarterMul st.2 →
      (∀ sid ∈ sids, ∀ sp', dictGet spByNorm sid = some sp' →
        dictGet st.1 sp'.id = some zeroSubResult) →
      ((sids.foldl (evalStep ext cfg aligned spByNorm) st).1.map
        (fun kv => kv.2.marks)).sum =
        (sids.foldl (evalStep ext cfg aligned spByNorm) st).2 ∧
      QuarterMul (sids.foldl (evalStep ext cfg aligned spByNorm) st).2 := by
  intro sids
  induction sids with
  | nil =>
    intro _ st hsum hq _
    exact ⟨hsum, hq⟩
  | cons sid rest ih =>
    intro hnd st hsum hq hzero
    simp only [List.foldl_cons]
    have hnd' := hnd.of_cons
    have hnotmem : sid ∉ rest := by
      have := List.nodup_cons.mp hnd
      exact this.1
    cases hg : dictGet spByNorm sid with
    | none =>
      have hstep : evalStep ext cfg aligned spByNorm st sid = st := by
        simp only [evalStep, hg]
      rw [hstep]
      exact ih hnd' st hsum hq
        (fun sid' hs sp' hsp' => hzero sid' (List.mem_cons_of_mem _ hs) sp' hsp')
    | some sp =>
      have hqm := scoreOne_marks_quarter ext cfg aligned sid sp
      have hstep : evalStep ext cfg aligned spByNorm st sid =
          (dictInsert st.1 sp.id
            { semantic_score := (scoreOne ext cfg aligned sid sp).2.1
              keyword_score := (scoreOne ext cfg aligned sid sp).2.2
              score := pyRound 4 (cfg.weights.semantic * (scoreOne ext cfg aligned sid sp).2.1 +
                cfg.weights.keyword * (scoreOne ext cfg aligned sid sp).2.2)
              marks := pyRound 4 (scoreOne ext cfg aligned sid sp).1 },
           st.2 + (scoreOne ext cfg aligned sid sp).1) := by
        simp only [evalStep, hg]
      rw [hstep]
      have hz := hzero sid (List.mem_cons_self _ _) sp hg
      apply ih hnd'
      · simp only
        rw [sum_marks_dictInsert st.1 sp.id zeroSubResult _ hz]
        rw [pyRound4_of_quarterMul hqm, hsum]
        show _ - zeroSubResult.marks + _ = _
        simp [zeroSubResult]
      · exact hq.add hqm
      · intro sid' hs sp' hsp'
        have hids : normIdE sp'.id = sid' := hprop (sid', sp') (dictGet_mem _ _ _ hsp')
        have hids2 : normIdE sp.id = sid := hprop (sid, sp) (dictGet_mem _ _ _ hg)
        have hne : sp'.id ≠ sp.id := by
          intro he
          rw [he, hids2] at hids
          rw [← hids] at hs
          exact hnotmem hs
        simp only
        rw [dictGet_dictInsert_ne _ _ _ _ hne]
        exact hzero sid' (List.mem_cons_of_mem _ hs) sp' hsp'

/-- Every binding of `sp_by_norm` stores a declared subpart. -/
theorem spByNorm_mem (sps : List ModelSubpart) :
    ∀ kv ∈ sps.foldl (fun d sp => dictInsert d (normIdE sp.id) sp) [],
      kv.2 ∈ sps := by
  have hgen : ∀ (l : List ModelSubpart) (d0 : List (PyStr × ModelSubpart)),
      (∀ kv ∈ d0, kv.2 ∈ sps) → (∀ sp ∈ l, sp ∈ sps) →
      ∀ kv ∈ l.foldl (fun d sp => dictInsert d (normIdE sp.id) sp) d0,
        kv.2 ∈ sps := by
    intro l
    induction l with
    | nil =>
      intro d0 h _ kv hm
      exact h kv hm
    | cons sp l ih =>
      intro d0 h hl kv hm
      simp only [List.foldl_cons] at hm
      exact ih _
        (dictInsert_prop (fun _ v => v ∈ sps) d0 _ _ h (hl sp (List.mem_cons_self _ _)))
        (fun x hx => hl x (List.mem_cons_of_mem _ hx)) kv hm
  intro kv hm
  exact hgen sps [] (by simp) (fun x hx => hx) kv hm

/-- The raw awarded sum of a question is always a quarter multiple. -/
theorem evalQuestionRaw_quarter (ext : PyExt) (cfg : Config)
    (q : ModelQuestion) (student : List (PyStr × JVal)) :
    QuarterMul (evalQuestionRaw ext cfg q student).2 := by
  simp only [evalQuestionRaw]
  apply foldl_preserve (P := fun st : List (PyStr × SubpartResult) × ℚ => QuarterMul st.2)
  · exact ⟨0, by norm_num⟩
  · intro st' sid _ hP
    cases hg : dictGet (q.subparts.foldl
        (fun d sp => dictInsert d (normIdE sp.id) sp) []) sid with
    | none =>
      simp only [evalStep, hg]
      exact hP
    | some sp =>
      simp only [evalStep, hg]
      exact hP.add (scoreOne_marks_quarter ext cfg
        (align_student_to_model q student) sid sp)

/-- With distinct folded subpart ids, the question's recorded `final_score`
is both the raw awarded sum and the sum of the per-subpart marks recorded in
the report. -/
theorem evalQuestionRaw_sum (ext : PyExt) (cfg : Config)
    (q : ModelQuestion) (student : List (PyStr × JVal))
    (hnd : ((q.subparts.map (fun sp => sp.id)).map normIdE).Nodup) :
    ((evalQuestionRaw ext cfg q student).1.subparts.map (fun kv => kv.2.marks)).sum =
      (evalQuestionRaw ext cfg q student).2 ∧
    (evalQuestionRaw ext cfg q student).1.final_score =
      (evalQuestionRaw ext cfg q student).2 := by
  have hsel := select_nodup q (align_student_to_model q student) hnd
  have hinv := evalStep_fold_invariant ext cfg (align_student_to_model q student)
    (q.subparts.foldl (fun d sp => dictInsert d (normIdE sp.id) sp) [])
    (spByNorm_prop q.subparts)
    (selectSubpartsToScore q (align_student_to_model q student)) hsel
    (q.subparts.foldl (fun d sp => dictInsert d sp.id zeroSubResult) [], 0)
    (by simpa using initDict_sum_zero q.subparts)
    ⟨0, by norm_num⟩
    (by
      intro sid _ sp' hsp'
      have hmem := spByNorm_mem q.subparts (sid, sp') (dictGet_mem _ _ _ hsp')
      rw [initDict_get]
      rw [if_pos ⟨sp', hmem, rfl⟩])
  obtain ⟨hsum, hq⟩ := hinv
  constructor
  · simp only [evalQuestionRaw]
    exact hsum
  · simp only [evalQuestionRaw]
    exact pyRound4_of_quarterMul hq

/-- Sums of quarter multiples are quarter multiples. -/
theorem quarterMul_sum :
    ∀ l : List ℚ, (∀ x ∈ l, QuarterMul x) → QuarterMul l.sum := by
  intro l
  induction l with
  | nil =>
    intro _
    exact ⟨0, by norm_num⟩
  | cons x xs ih =>
    intro h
    rw [List.sum_cons]
    exact (h x (List.mem_cons_self _ _)).add
      (ih (fun y hy => h y (List.mem_cons_of_mem _ hy)))

/-- The accumulating fold of the orchestrator appends one entry per question
(when the report keys stay distinct) and adds up the raw awarded sums. -/
theorem evalAccum_fold (ext : PyExt) (cfg : Config) (student : List (PyStr × JVal)) :
    ∀ (qs : List ModelQuestion) (rep : Report),
      (qs.map qKeyOf).Nodup →
      (∀ q' ∈ qs, ∀ kv ∈ rep.by_question, kv.1 ≠ qKeyOf q') →
      (qs.foldl (evalAccum ext cfg student) rep).by_question =
        rep.by_question ++ qs.map (fun q => (qKeyOf q, evalQuestion ext cfg q student)) ∧
      (qs.foldl (evalAccum ext cfg student) rep).total_awarded =
        rep.total_awarded +
          (qs.map (fun q => (evalQuestionRaw ext cfg q student).2)).sum := by
  intro qs
  induction qs with
  | nil =>
    intro rep _ _
    constructor
    · simp
    · simp
  | cons q qs ih =>
    intro rep hnd hfresh
    simp only [List.foldl_cons]
    have hstep : (evalAccum ext cfg student rep q).by_question =
        rep.by_question ++ [(qKeyOf q, evalQuestion ext cfg q student)] := by
      simp only [evalAccum, evalQuestion]
      exact dictInsert_fresh rep.by_question (qKeyOf q) _
        (fun kv hkv => hfresh q (List.mem_cons_self _ _) kv hkv)
    have hnd' := hnd.of_cons
    have hnotmem : qKeyOf q ∉ qs.map qKeyOf := (List.nodup_cons.mp hnd).1
    have hfresh' : ∀ q' ∈ qs, ∀ kv ∈ (evalAccum ext cfg student rep q).by_question,
        kv.1 ≠ qKeyOf q' := by
      intro q' hq' kv hkv
      rw [hstep] at hkv
      rcases List.mem_append.mp hkv with hk | hk
      · exact hfresh q' (List.mem_cons_of_mem _ hq') kv hk
      · rcases List.mem_cons.mp hk with rfl | hk2
        · intro he
          apply hnotmem
          rw [show qKeyOf q = qKeyOf q' from he]
          exact List.mem_map_of_mem qKeyOf hq'
        · simp at hk2
    obtain ⟨hby, hta⟩ := ih (evalAccum ext cfg student rep q) hnd' hfresh'
    constructor
    · rw [hby, hstep]
      simp
    · rw [hta]
      have : (evalAccum ext cfg student rep q).total_awarded =
          rep.total_awarded + (evalQuestionRaw ext cfg q student).2 := rfl
      rw [this]
      simp only [List.map_cons, List.sum_cons]
      ring

/-- The recorded final score is the 4-decimal rounding of the raw awarded
sum. -/
theorem evalQuestion_final_score_eq (ext : PyExt) (cfg : Config)
    (q : ModelQuestion) (student : List (PyStr × JVal)) :
    (evalQuestion ext cfg q student).final_score =
      pyRound 4 (evalQuestionRaw ext cfg q student).2 := by
  simp only [evalQuestion, evalQuestionRaw]

/-- With distinct report keys, the report's `total_awarded` is exactly the
sum of the recorded per-question final scores. -/
theorem evaluate_total_eq_sum (ext : PyExt) (cfg : Config)
    (questions : List ModelQuestion) (student : List (PyStr × JVal))
    (hnd : (questions.map qKeyOf).Nodup) :
    (evaluate_student_answers ext cfg questions student).total_awarded =
      ((evaluate_student_answers ext cfg questions student).by_question.map
        (fun kv => kv.2.final_score)).sum := by
  obtain ⟨hby, hta⟩ := evalAccum_fold ext cfg student questions
    { total_awarded := 0, total_max := 0, percentage := 0, by_question := [] }
    hnd (by intro q' _ kv hkv; simp at hkv)
  simp only [evaluate_student_answers]
  rw [hta, hby]
  simp only [List.nil_append, zero_add, List.map_map]
  have hfs : ∀ q ∈ questions,
      ((fun kv => kv.2.final_score) ∘ fun q => (qKeyOf q, evalQuestion ext cfg q student)) q =
        (evalQuestionRaw ext cfg q student).2 := by
    intro q _
    simp only [Function.comp]
    rw [evalQuestion_final_score_eq]
    exact pyRound4_of_quarterMul (evalQuestionRaw_quarter ext cfg q student)
  rw [List.map_congr_left hfs]
  exact pyRound4_of_quarterMul (quarterMul_sum _ (fun x hx => by
    obtain ⟨q, _, rfl⟩ := List.mem_map.mp hx
    exact evalQuestionRaw_quarter ext cfg q student))

/-- With distinct report keys, every entry of `by_question` is the
evaluation of one of the input questions under its key. -/
theorem evaluate_by_question_eq (ext : PyExt) (cfg : Config)
    (questions : List ModelQuestion) (student : List (PyStr × JVal))
    (hnd : (questions.map qKeyOf).Nodup) :
    (evaluate_student_answers ext cfg questions student).by_question =
      questions.map (fun q => (qKeyOf q, evalQuestion ext cfg q student)) := by
  obtain ⟨hby, _⟩ := evalAccum_fold ext cfg student questions
    { total_awarded := 0, total_max := 0, percentage := 0, by_question := [] }
    hnd (by intro q' _ kv hkv; simp at hkv)
  simp only [evaluate_student_answers]
  rw [hby]
  simp

/-! ### Claim theorems, witnesses and counterexamples -/

/-- Witness for C1 at a concrete input (`apple` against `apple`, 5 marks,
default configuration): both hypotheses discharge by evaluation. -/
theorem claim_C1_witness :
    (compute_subpart_score extDefault cfgDefault ("apple".toList)
      ("apple".toList) 5 false).1 =
      claimC1marks extDefault cfgDefault ("apple".toList) ("apple".toList) 5 :=
  claim_C1 extDefault cfgDefault ("apple".toList) ("apple".toList) 5
    (by decide) (fun h => absurd h (by with_unfolding_all decide))

/-- C2: the orchestrator's subpart selection scores every declared (folded)
subpart id when `attempt_required = "all"` or the policy is `"none"`; under
`"first_n"` with a non-negative integer `attempt_required = n` (the data
model restricts this field to `"all"` or a positive integer) it scores
exactly the first `n` folded ids with non-blank aligned text; unselected
subparts keep the all-zero entry in the question's report; and with distinct
report keys the report's `by_question` entries are exactly the per-question
evaluations. -/
theorem claim_C2 :
    (∀ (q : ModelQuestion) (aligned : List (PyStr × PyStr)),
      getAttemptRequired q = ARVal.str ("all".toList) ∨
        getSelectionPolicy q = "none".toList →
      selectSubpartsToScore q aligned =
        (q.subparts.map (fun sp => sp.id)).map normIdE) ∧
    (∀ (q : ModelQuestion) (aligned : List (PyStr × PyStr)) (n : ℤ),
      getSelectionPolicy q = "first_n".toList →
      getAttemptRequired q = ARVal.int n → 0 ≤ n →
      selectSubpartsToScore q aligned =
        (((q.subparts.map (fun sp => sp.id)).map normIdE).filter (fun i =>
          match dictGet aligned i with
          | some v => decide (pyStrip v ≠ [])
          | none => false)).take n.toNat) ∧
    (∀ (ext : PyExt) (cfg : Config) (q : ModelQuestion)
        (student : List (PyStr × JVal)) (sp : ModelSubpart),
      sp ∈ q.subparts →
      normIdE sp.id ∉ selectSubpartsToScore q (align_student_to_model q student) →
      dictGet (evalQuestion ext cfg q student).subparts sp.id = some zeroSubResult) ∧
    (∀ (ext : PyExt) (cfg : Config) (questions : List ModelQuestion)
        (student : List (PyStr × JVal)),
      (questions.map qKeyOf).Nodup →
      (evaluate_student_answers ext cfg questions student).by_question =
        questions.map (fun q => (qKeyOf q, evalQuestion ext cfg q student))) :=
  ⟨select_all_ids, select_first_n, evalQuestion_unselected_zero, evaluate_by_question_eq⟩

/-- Witness for C2 at concrete inputs: a default-policy question selects its
(only) subpart id; a `first_n(1)` question with two answered subparts selects
exactly the first; the unselected subpart keeps the all-zero report entry;
and the report lists the question under its normalized key. -/
theorem claim_C2_witness :
    selectSubpartsToScore qOneSub (align_student_to_model qOneSub []) =
      [("a".toList)] ∧
    selectSubpartsToScore qTwoFirstN (align_student_to_model qTwoFirstN studTwo) =
      [("a".toList)] ∧
    dictGet (evalQuestion extDefault cfgDefault qTwoFirstN studTwo).subparts
      ("b".toList) = some zeroSubResult ∧
    (evaluate_student_answers extDefault cfgDefault [qOneSub] []).by_question =
      [(("1".toList), evalQuestion extDefault cfgDefault qOneSub [])] := by
  refine ⟨?_, ?_, ?_, ?_⟩
  · exact (claim_C2.1 qOneSub _ (Or.inl (by decide))).trans (by decide)
  · exact (claim_C2.2.1 qTwoFirstN _ 1 (by decide) (by decide) (by decide)).trans (by decide)
  · exact claim_C2.2.2.1 extDefault cfgDefault qTwoFirstN studTwo
      { id := "b".toList, model_answer := "y".toList, marks := 5 }
      (by decide) (by decide)
  · exact (claim_C2.2.2.2 extDefault cfgDefault [qOneSub] [] (by decide)).trans
      (by with_unfolding_all decide)

/-- C3 (amended): the note `"No answers found for this question."` is
recorded exactly in the case where, besides the alignment being empty, the
selection also came out empty (for example under `first_n`, or with no
declared subparts); with the default `"none"`/`"all"` settings and a
non-empty subpart list, an empty alignment leaves the notes empty (see the
counterexample). -/
theorem claim_C3 :
    ∀ (ext : PyExt) (cfg : Config) (q : ModelQuestion)
      (student : List (PyStr × JVal)),
    align_student_to_model q student = [] →
    selectSubpartsToScore q (align_student_to_model q student) = [] →
    (evalQuestion ext cfg q student).notes = [noteNoAnswers] :=
  fun ext cfg q student hal hsel =>
    evalQuestion_notes_no_answers ext cfg q student hsel hal

/-- Counterexample to C3 as stated: a question with default selection
settings and one subpart, evaluated against an empty student document, has
an empty alignment and yet an empty notes list (no explanatory note is
recorded, because the selection was non-empty). -/
theorem claim_C3_counterexample :
    align_student_to_model qOneSub [] = [] ∧
    (evalQuestion extDefault cfgDefault qOneSub []).notes = [] := by decide

/-- Witness for C3 (amended) at a concrete input: under `first_n(1)` with an
empty student document both hypotheses hold and the note is recorded. -/
theorem claim_C3_witness :
    (evalQuestion extDefault cfgDefault qFirstN []).notes = [noteNoAnswers] :=
  claim_C3 extDefault cfgDefault qFirstN [] (by decide) (by decide)

/-- C4 (amended): for an MCQ-shaped subpart, an undetected or ambiguous
choice yields marks 0 with semantic 0 and keyword 0 (and no failure); a
detected letter `X` re-renders the student answer as the canonical token
`(X)`, and the awarded marks equal the *teacher-rounded* `max_marks`
(`roundQuarter`, hence the full `max_marks` whenever it is a multiple of
0.25) when the semantic similarity of `(X)` against the model answer reaches
`mcq_min_correct_score`, and 0 otherwise. -/
theorem claim_C4 :
    ∀ (ext : PyExt) (cfg : Config) (aligned : List (PyStr × PyStr))
      (sid : PyStr) (sp : ModelSubpart),
    is_mcq sp.model_answer = true →
    (pick_student_choice ((dictGet aligned sid).getD []) = none →
      scoreOne ext cfg aligned sid sp = (0, 0, 0)) ∧
    (∀ X : Char, pick_student_choice ((dictGet aligned sid).getD []) = some X →
      scoreOne ext cfg aligned sid sp =
        compute_subpart_score ext cfg sp.model_answer ['(', X, ')'] sp.marks true ∧
      (scoreOne ext cfg aligned sid sp).1 =
        (if cfg.thresholds.mcq_min_correct_score ≤
            semantic_similarity ext cfg sp.model_answer ['(', X, ')']
          then roundQuarter sp.marks else 0)) := by
  intro ext cfg aligned sid sp hmcq
  constructor
  · exact scoreOne_mcq_none ext cfg aligned sid sp hmcq
  · intro X hpick
    have h1 := scoreOne_mcq_some ext cfg aligned sid sp X hmcq hpick
    refine ⟨h1, ?_⟩
    rw [h1]
    exact compute_mcq_marks ext cfg sp.model_answer X sp.marks

/-- Counterexample to C4 as stated: an MCQ subpart worth 0.3 marks, answered
correctly, is awarded 0.25 marks — a value strictly between 0 and the full
`max_marks`, so the awarded marks are neither `max_marks` nor 0. -/
theorem claim_C4_counterexample :
    is_mcq spMcq.model_answer = true ∧
    pick_student_choice ((dictGet alignedMcq ("a".toList)).getD []) = some 'B' ∧
    (scoreOne extDefault cfgDefault alignedMcq ("a".toList) spMcq).1 = 1/4 ∧
    ¬ ((scoreOne extDefault cfgDefault alignedMcq ("a".toList) spMcq).1 = spMcq.marks ∨
       (scoreOne extDefault cfgDefault alignedMcq ("a".toList) spMcq).1 = 0) := by
  with_unfolding_all decide

/-- Witness for C4 (amended) at concrete inputs: with no aligned text the
choice is `none` and everything is zero; with the aligned answer `(b)` the
subpart is awarded the teacher-rounded full marks. -/
theorem claim_C4_witness :
    scoreOne extDefault cfgDefault [] ("a".toList) spMcq = (0, 0, 0) ∧
    (scoreOne extDefault cfgDefault alignedMcq ("a".toList) spMcq).1 =
      roundQuarter spMcq.marks := by
  constructor
  · exact (claim_C4 extDefault cfgDefault [] ("a".toList) spMcq (by decide)).1 (by decide)
  · have h := ((claim_C4 extDefault cfgDefault alignedMcq ("a".toList) spMcq
      (by decide)).2 'B' (by decide)).2
    rw [h]
    rw [if_pos (by with_unfolding_all decide)]

/-- C5: `pick_student_choice` collects every parenthesized option letter and
every free-standing option letter (A–D, case-insensitive), returns `none`
when none occur or when more than one distinct letter was collected, and
otherwise the unique collected letter (upper-cased); including the
specification's three concrete examples. -/
theorem claim_C5 :
    (∀ s : PyStr, mcqCandidates s = [] → pick_student_choice s = none) ∧
    (∀ s : PyStr, 1 < (mcqCandidates s).dedup.length →
      pick_student_choice s = none) ∧
    (∀ (s : PyStr) (X : Char), (mcqCandidates s).dedup = [X] →
      pick_student_choice s = some X) ∧
    pick_student_choice ("I choose (B)".toList) = some 'B' ∧
    pick_student_choice ("maybe A or maybe B".toList) = none ∧
    pick_student_choice ("no idea".toList) = none :=
  ⟨fun _ h => pick_none_of_no_candidates h,
   fun _ h => pick_none_of_ambiguous h,
   fun _ _ h => pick_some_of_unique h,
   by decide, by decide, by decide⟩

/-- Witness for C5 at concrete inputs, discharging each hypothesis by
evaluation. -/
theorem claim_C5_witness :
    pick_student_choice ("I choose (B)".toList) = some 'B' ∧
    pick_student_choice ("maybe A or maybe B".toList) = none ∧
    pick_student_choice ("zzz".toList) = none :=
  ⟨claim_C5.2.2.1 ("I choose (B)".toList) 'B' (by decide),
   claim_C5.2.1 ("maybe A or maybe B".toList) (by decide),
   claim_C5.1 ("zzz".toList) (by decide)⟩

/-- C6: for every input and configuration, in both the MCQ and the
subjective branch (and on the blank-answer guard), the marks value returned
by `compute_subpart_score` is an integer multiple of 0.25. -/
theorem claim_C6 :
    ∀ (ext : PyExt) (cfg : Config) (ma sa : PyStr) (mm : ℚ) (flag : Bool),
      QuarterMul (compute_subpart_score ext cfg ma sa mm flag).1 :=
  computeSubpart_marks_quarter

/-- C7 (amended): `keyword_match_score` returns 0 when either input is empty
or no keywords were extracted, and otherwise hits over number of extracted
keywords **rounded to 4 decimal places** (the source's `round(score, 4)`,
which the claim's plain quotient misses — see the counterexample); the
result always lies in `[0,1]`.  Hypotheses: the fuzzy threshold is positive
(0.88 in the repository) and the external ratio of an empty string against a
non-empty token is non-positive (as for `SequenceMatcher`). -/
theorem claim_C7 :
    ∀ (ext : PyExt) (cfg : Config) (m s : PyStr),
      0 < cfg.keywords.fuzzy_threshold →
      (∀ t : PyStr, t ≠ [] → ext.fuzzSim [] t ≤ 0) →
      keyword_match_score ext cfg m s = pyRound 4 (claimC7score ext cfg m s) ∧
      0 ≤ keyword_match_score ext cfg m s ∧ keyword_match_score ext cfg m s ≤ 1 :=
  fun ext cfg m s hth hfz =>
    ⟨keyword_match_score_eq_claim ext cfg m s hth hfz,
     keyword_match_score_bounds ext cfg m s⟩

set_option maxRecDepth 4000 in
/-- Counterexample to C7 as stated: three extracted keywords and one hit
give the returned score 0.3333 (4-decimal rounding), which differs from the
claimed plain quotient 1/3. -/
theorem claim_C7_counterexample :
    keyword_match_score extKw cfgNoFuzzy ("fruit".toList) ("apple".toList) =
      3333/10000 ∧
    claimC7score extKw cfgNoFuzzy ("fruit".toList) ("apple".toList) = 1/3 ∧
    keyword_match_score extKw cfgNoFuzzy ("fruit".toList) ("apple".toList) ≠
      claimC7score extKw cfgNoFuzzy ("fruit".toList) ("apple".toList) := by
  have hq : claimC7score extKw cfgNoFuzzy ("fruit".toList) ("apple".toList) =
      1/3 := by
    with_unfolding_all decide
  have he : keyword_match_score extKw cfgNoFuzzy ("fruit".toList)
        ("apple".toList) =
      pyRound 4 (claimC7score extKw cfgNoFuzzy ("fruit".toList)
        ("apple".toList)) :=
    keyword_match_score_eq_claim extKw cfgNoFuzzy ("fruit".toList)
      ("apple".toList) (by with_unfolding_all decide) (fun _ _ => le_refl 0)
  have hf : ⌊(1:ℚ)/3 * 10 ^ 4⌋ = 3333 := by
    rw [Int.floor_eq_iff]
    norm_num
  have hr : pyRound 4 ((1:ℚ)/3) = 3333/10000 := by
    rw [pyRound_def]
    simp only [pyRoundInt]
    rw [hf]
    norm_num
  rw [he, hq, hr]
  exact ⟨rfl, rfl, by norm_num⟩

/-- Witness for C7 (amended) at a concrete input. -/
theorem claim_C7_witness :
    keyword_match_score extKw cfgNoFuzzy ("fruit".toList) ("apple".toList) =
      pyRound 4 (claimC7score extKw cfgNoFuzzy ("fruit".toList) ("apple".toList)) ∧
    0 ≤ keyword_match_score extKw cfgNoFuzzy ("fruit".toList) ("apple".toList) ∧
    keyword_match_score extKw cfgNoFuzzy ("fruit".toList) ("apple".toList) ≤ 1 :=
  claim_C7 extKw cfgNoFuzzy ("fruit".toList) ("apple".toList)
    (by with_unfolding_all decide)
    (fun _ _ => le_refl 0)

/-- C8 (amended): `normalize_text` is idempotent for every text and every
fixed choice of options whenever stemming and lemmatization are inactive
(disabled, or their NLTK tools unavailable) and the transliterator fixes
ASCII characters, as `unidecode` does; stopword removal and number masking
may be enabled.  With stemming active this fails — see the counterexample,
where a token stems to a stopword that the second pass removes. -/
theorem claim_C8 :
    ∀ (ext : PyExt) (tc : TextCleaning) (x : PyStr),
      (tc.apply_stemming && ext.stemAvail) = false →
      (tc.apply_lemmatization && ext.lemAvail) = false →
      (∀ c : Char, c.toNat < 128 → ext.unidec c = [c]) →
      normalize_text ext tc (normalize_text ext tc x) = normalize_text ext tc x :=
  fun ext tc x hst hlm hu => normalize_text_idem_nostem ext tc hst hlm hu x

/-- Counterexample to C8 as stated (options with stemming enabled): the
Porter stemmer maps `cans` to the stopword `can`, which the second
normalization pass removes, so `normalize` is not idempotent at `x = "cans"`
when stemming and stopword removal are both on. -/
theorem claim_C8_counterexample :
    normalize_text extStem tcStem
        (normalize_text extStem tcStem ("cans".toList)) ≠
      normalize_text extStem tcStem ("cans".toList) := by decide

/-- Witness for C8 (amended) at a concrete input with the repository's
default cleaning options. -/
theorem claim_C8_witness :
    normalize_text extDefault cfgDefault.text_cleaning
        (normalize_text extDefault cfgDefault.text_cleaning
          (" The Answer 42 ".toList)) =
      normalize_text extDefault cfgDefault.text_cleaning
        (" The Answer 42 ".toList) :=
  claim_C8 extDefault cfgDefault.text_cleaning (" The Answer 42 ".toList)
    (by decide) (by decide) (fun _ _ => rfl)

/-- C9: every key of an alignment result is one of the model question's
folded subpart ids, and when no section of the submission matches the
question's digit signature the result is the empty mapping. -/
theorem claim_C9 :
    ∀ (q : ModelQuestion) (root : List (PyStr × JVal)),
      (∀ kv ∈ align_student_to_model q root,
        kv.1 ∈ q.subparts.map (fun sp => normIdA sp.id)) ∧
      (findQuestionSection root (digitsOf (pyStrip q.question_number)) = none →
        align_student_to_model q root = []) :=
  fun q root => ⟨align_keys_declared q root, align_empty_of_no_section q root⟩

/-- Witness for C9 at concrete inputs: a produced key is a declared id, and
an unmatched question aligns to the empty mapping. -/
theorem claim_C9_witness :
    ("a".toList) ∈ qTwoFirstN.subparts.map (fun sp => normIdA sp.id) ∧
    align_student_to_model qOneSub [] = [] :=
  ⟨(claim_C9 qTwoFirstN studTwo).1 (("a".toList), ("ans one".toList)) (by decide),
   (claim_C9 qOneSub []).2 rfl⟩

/-- C10 (amended): provided the questions produce distinct report keys,
`total_awarded` equals the sum of the recorded per-question final scores and
`by_question` holds exactly the per-question evaluations; and for every
question whose folded subpart ids are distinct, its `final_score` equals the
sum of the per-subpart marks recorded in the report (exactly — every awarded
marks value is a quarter multiple, which the 4-decimal rounding fixes).
Duplicate report keys or duplicate folded subpart ids break the claim as
stated — see the counterexample. -/
theorem claim_C10 :
    ∀ (ext : PyExt) (cfg : Config) (questions : List ModelQuestion)
      (student : List (PyStr × JVal)),
    (questions.map qKeyOf).Nodup →
    ((evaluate_student_answers ext cfg questions student).total_awarded =
      ((evaluate_student_answers ext cfg questions student).by_question.map
        (fun kv => kv.2.final_score)).sum) ∧
    ((evaluate_student_answers ext cfg questions student).by_question =
      questions.map (fun q => (qKeyOf q, evalQuestion ext cfg q student))) ∧
    (∀ q ∈ questions, ((q.subparts.map (fun sp => sp.id)).map normIdE).Nodup →
      (evalQuestion ext cfg q student).final_score =
        ((evalQuestion ext cfg q student).subparts.map
          (fun kv => kv.2.marks)).sum) := by
  intro ext cfg questions student hnd
  refine ⟨evaluate_total_eq_sum ext cfg questions student hnd,
    evaluate_by_question_eq ext cfg questions student hnd, ?_⟩
  intro q _ hnds
  obtain ⟨hsum, hfs⟩ := evalQuestionRaw_sum ext cfg q student hnds
  simp only [evalQuestion]
  rw [hfs]
  exact hsum.symm

/-- Counterexample to C10 as stated: two questions sharing the report key
`1` make `total_awarded` (1) differ from the sum of recorded final scores
(0, since the second entry overwrote the first); and a question whose two
subparts fold to the same id is scored twice into `final_score` (2) while
the report's subpart marks sum to 1. -/
theorem claim_C10_counterexample :
    (evaluate_student_answers extDefault cfgDefault [qMcqOne, qEmptyOne]
        studMcq).total_awarded ≠
      (((evaluate_student_answers extDefault cfgDefault [qMcqOne, qEmptyOne]
        studMcq).by_question.map (fun kv => kv.2.final_score)).sum) ∧
    (evalQuestion extDefault cfgDefault qDupIds studMcq).final_score ≠
      ((evalQuestion extDefault cfgDefault qDupIds studMcq).subparts.map
        (fun kv => kv.2.marks)).sum := by
  with_unfolding_all decide

/-- Witness for C10 (amended) at a concrete one-question report. -/
theorem claim_C10_witness :
    ((evaluate_student_answers extDefault cfgDefault [qMcqOne] studMcq).total_awarded =
      ((evaluate_student_answers extDefault cfgDefault [qMcqOne]
        studMcq).by_question.map (fun kv => kv.2.final_score)).sum) ∧
    ((evalQuestion extDefault cfgDefault qMcqOne studMcq).final_score =
      ((evalQuestion extDefault cfgDefault qMcqOne studMcq).subparts.map
        (fun kv => kv.2.marks)).sum) :=
  ⟨(claim_C10 extDefault cfgDefault [qMcqOne] studMcq (by decide)).1,
   (claim_C10 extDefault cfgDefault [qMcqOne] studMcq (by decide)).2.2 qMcqOne
     (List.mem_singleton.mpr rfl) (by decide)⟩
